import Mathlib

/-!
# Verification of the rrrSnvs clustering core

Shallow embedding of the statistical clustering engine of `exec/vcfToMatrix.py`
(and, where a claim refers to it, the historical variant `exec/vcfToMatrix_2.py`).

Modelling conventions:
* numpy float entries are rationals (`ℚ`); a NaN ("missing") entry is `none`
  in an `Option ℚ`, since the only NaNs arising in this code come from missing
  genotype data and from the `0/0` of a pair with no valid comparisons;
* a difference tensor (locus × sample × sample) is a list of square matrices;
* a scipy linkage matrix is modelled by its first two columns only (the child
  ids of each merge), which is all the code under scrutiny reads from it;
* Python dictionaries whose keys are only ever freshly inserted are modelled
  by association lists in insertion order;
* Python exceptions (`ValueError`, `KeyError`, `sys.exit`) become `Except PyErr`.
-/

namespace RrrSnvs

/-- A tensor entry: `some q` is a genotype difference count, `none` is NaN. -/
abbrev DVal := Option ℚ

/-- One locus slice of the difference tensor: a sample × sample matrix. -/
abbrev LocusSlice := List (List DVal)

/-- The difference tensor, locus major. -/
abbrev Tensor := List LocusSlice

/-- Ascending sort of a member list; Python's `list.sort()` on sample indices. -/
def sortNat (l : List ℕ) : List ℕ := List.insertionSort (· ≤ ·) l

/-! ## MembershipResolver: `get_cluster_members` (vcfToMatrix.py lines 185-194) -/

/-- One iteration of the loop body of `get_cluster_members`: append the sorted
concatenation of the two children's member lists. -/
def gcmStep (acc : List (List ℕ)) (m : ℕ × ℕ) : List (List ℕ) :=
  acc ++ [sortNat (acc.getD m.1 [] ++ acc.getD m.2 [])]

/-- `get_cluster_members(hclust, n_samples)`: leaves are singletons `[x]` for
`x < S`; each merge row appends the sorted union of its two children. -/
def get_cluster_members (Z : List (ℕ × ℕ)) (S : ℕ) : List (List ℕ) :=
  Z.foldl gcmStep ((List.range S).map fun x => [x])

/-! ## ClusterCollapser machinery (vcfToMatrix.py lines 250-313) -/

/-- Linear search of `find_parent_node`'s loop: starting at index `i`, with
`steps` indices left to try, return the first index whose member list contains
`x`. -/
def fpnFrom (tc : List (List ℕ)) (x : ℕ) : ℕ → ℕ → Option ℕ
  | _, 0 => none
  | i, steps + 1 => if x ∈ tc.getD i [] then some i else fpnFrom tc x (i + 1) steps

/-- `find_parent_node(node_id, true_clusters)` (lines 299-303): the first
`i ∈ (node_id, len(true_clusters))` with `true_clusters[node_id][0] ∈
true_clusters[i]`; `none` models the Python return value `'none'`. -/
def find_parent_node (node_id : ℕ) (tc : List (List ℕ)) : Option ℕ :=
  fpnFrom tc ((tc.getD node_id []).headD 0) (node_id + 1) (tc.length - (node_id + 1))

/-- A verdict stored in `parent_dict`: the string `'fork'` (in vcfToMatrix_2.py
the analogous sentinel string `'not a cluster'`), or a finalized node id. -/
inductive Verdict where
  | fork
  | node (m : ℕ)
deriving DecidableEq

/-- The Python exceptions this code can raise. -/
inductive PyErr where
  /-- the `ValueError` of `is_parent_a_fork` / `is_parent_a_cluster`. -/
  | parentNotFound
  /-- a `KeyError` from indexing `parent_dict` with an absent key. -/
  | keyError
  /-- vcfToMatrix_2.py's `ValueError` "Cluster n did not meet any criteria". -/
  | noCriteria (n : ℕ)
  /-- the `sys.exit` of `get_diff_matrix_from_bcf`, whose message names the
  bcf input file and the `min_snvs_for_cluster` threshold carried here. -/
  | systemExit (min_snvs : ℕ)
deriving DecidableEq

/-- `parent_dict`: keys are node ids or the sentinel `'none'` (modelled as the
`Option ℕ` value `none`), in insertion order. -/
abbrev VDict := List (Option ℕ × Verdict)

/-- Dictionary lookup; keys are inserted at most once, so scanning order is
irrelevant. -/
def dlookup (k : Option ℕ) : VDict → Option Verdict
  | [] => none
  | (k', v) :: rest => if k = k' then some v else dlookup k rest

/-- `is_parent_a_fork(parent_dict, node_id, true_clusters)` (lines 305-313). -/
def is_parent_a_fork (d : VDict) (node_id : ℕ) (tc : List (List ℕ)) :
    Except PyErr Bool :=
  match dlookup (find_parent_node node_id tc) d with
  | some v => Except.ok (decide (v = Verdict.fork))
  | none => Except.error PyErr.parentNotFound

/-- One iteration of the loop of `collapse_clusters` (lines 255-266), for node
`cluster_num`, in the regime where `my_bootstrap` is an actual number: there
the Python `>= threshold` / `< threshold` pair is exhaustive and is mirrored
by `τ ≤ my` / `my < τ`.  A NaN `my_bootstrap` (which arises only from
`counts /= 0` at zero replicates) fails both float comparisons and leaves the
node unassigned; that full float behaviour is `collapseStepF` below. -/
def collapseStep (tc : List (List ℕ)) (bv : List ℚ) (τ : ℚ)
    (d : VDict) (cluster_num : ℕ) : Except PyErr VDict := do
  let pif ← is_parent_a_fork d cluster_num tc
  let my := bv.getD cluster_num 0
  if pif then
    if τ ≤ my then
      return d ++ [(some cluster_num, Verdict.fork)]
    else
      return d ++ [(some cluster_num, Verdict.node cluster_num)]
  else
    match dlookup (find_parent_node cluster_num tc) d with
    | some v => return d ++ [(some cluster_num, v)]
    | none => Except.error PyErr.keyError

/-- The verdict map built by `collapse_clusters`: `parent_dict = {'none': 'fork'}`
followed by the loop over `range(len(bootstrap_values)-1, -1, -1)`. -/
def buildVerdicts (tc : List (List ℕ)) (bv : List ℚ) (τ : ℚ) :
    Except PyErr VDict :=
  (List.range bv.length).reverse.foldlM (collapseStep tc bv τ) [(none, Verdict.fork)]

/-- Expansion of one verdict value into a member list (dropping `'fork'`). -/
def verdictOut (tc : List (List ℕ)) : Verdict → Option (List ℕ)
  | Verdict.fork => none
  | Verdict.node m => some (tc.getD m [])

/-- `collapse_clusters(true_clusters, bootstrap_values, threshold)` (lines
250-270).  The Python `set(parent_dict.values())` has unspecified iteration
order; the distinct values are enumerated here by `dedup` of the insertion
-order value list, so all claims about the output are order-insensitive.
`clusters.remove('fork')` never raises: the `'none'` entry's value is always
`'fork'`. -/
def collapse_clusters (tc : List (List ℕ)) (bv : List ℚ) (τ : ℚ) :
    Except PyErr (List (List ℕ)) := do
  let d ← buildVerdicts tc bv τ
  return ((d.map Prod.snd).dedup.filterMap (verdictOut tc))

/-! ### The collapse rule of spec §4.7, stated independently of the dict loop.

`goV` is the rule as the spec words it ("root handled first, …"), written with
explicit fuel; `ruleVerdict` instantiates the fuel large enough (`parent(n) > n`
so chains have length at most `tc.length`). -/

/-- Fuelled form of the spec's verdict rule. -/
def goV (tc : List (List ℕ)) (bv : List ℚ) (τ : ℚ) : ℕ → ℕ → Verdict
  | 0, _ => Verdict.fork
  | fuel + 1, n =>
    match find_parent_node n tc with
    | none => if τ ≤ bv.getD n 0 then Verdict.fork else Verdict.node n
    | some p =>
      match goV tc bv τ fuel p with
      | Verdict.fork => if τ ≤ bv.getD n 0 then Verdict.fork else Verdict.node n
      | Verdict.node m => Verdict.node m

/-- The spec's verdict for node `n`: fork if its parent is a fork and its
support meets τ, its own id if its parent is a fork and support misses τ,
otherwise its parent's (finalized) verdict. -/
def ruleVerdict (tc : List (List ℕ)) (bv : List ℚ) (τ : ℚ) (n : ℕ) : Verdict :=
  goV tc bv τ (tc.length + 1) n

/-- The member lists of the distinct non-fork verdict values. -/
def ruleClusters (tc : List (List ℕ)) (bv : List ℚ) (τ : ℚ) : List (List ℕ) :=
  (((List.range bv.length).reverse.map (ruleVerdict tc bv τ)).dedup).filterMap
    (verdictOut tc)

/-- The `parent_dict` after the loop of `collapse_clusters` has processed the
node ids from `len(bootstrap_values) - 1` down to `k`: the sentinel entry
followed by one entry per processed node, highest id first. -/
def dictDown (tc : List (List ℕ)) (bv : List ℚ) (τ : ℚ) (k : ℕ) : VDict :=
  (none, Verdict.fork) ::
    ((List.range' k (bv.length - k)).reverse.map fun j =>
      (some j, ruleVerdict tc bv τ j))

/-! ### Full float semantics of the collapse loop.

`bootstrap_values` is a numpy float array, so an entry can be NaN (exactly
when `calculate_bootstrap_values` divides by zero replicates).  A float support
is `Option ℚ` with `none` for NaN; both IEEE comparisons `NaN >= t` and
`NaN < t` are false, so a NaN-supported node whose parent is a fork falls
through both branches of the Python `if`/`elif` and receives NO entry in
`parent_dict` — which is how the `ValueError` of `is_parent_a_fork` becomes
reachable at the next node down. -/

/-- Float `my_bootstrap >= threshold`: false when `my_bootstrap` is NaN. -/
def cmpGE (my : Option ℚ) (τ : ℚ) : Bool :=
  match my with
  | some q => decide (τ ≤ q)
  | none => false

/-- Float `my_bootstrap < threshold`: false when `my_bootstrap` is NaN. -/
def cmpLT (my : Option ℚ) (τ : ℚ) : Bool :=
  match my with
  | some q => decide (q < τ)
  | none => false

/-- The loop body of `collapse_clusters` (lines 255-266) over float supports:
identical to `collapseStep` except that with a fork parent and a NaN support
neither comparison holds and the dict is left unchanged. -/
def collapseStepF (tc : List (List ℕ)) (bv : List (Option ℚ)) (τ : ℚ)
    (d : VDict) (cluster_num : ℕ) : Except PyErr VDict := do
  let pif ← is_parent_a_fork d cluster_num tc
  let my := bv.getD cluster_num none
  if pif then
    if cmpGE my τ then
      return d ++ [(some cluster_num, Verdict.fork)]
    else if cmpLT my τ then
      return d ++ [(some cluster_num, Verdict.node cluster_num)]
    else
      return d
  else
    match dlookup (find_parent_node cluster_num tc) d with
    | some v => return d ++ [(some cluster_num, v)]
    | none => Except.error PyErr.keyError

/-- `collapse_clusters` over float supports (the faithful model, agreeing with
`collapse_clusters` whenever every support is an actual number). -/
def collapse_clustersF (tc : List (List ℕ)) (bv : List (Option ℚ)) (τ : ℚ) :
    Except PyErr (List (List ℕ)) := do
  let d ← (List.range bv.length).reverse.foldlM (collapseStepF tc bv τ)
    [(none, Verdict.fork)]
  return ((d.map Prod.snd).dedup.filterMap (verdictOut tc))

/-! ## The historical variant: `collapse_clusters` of vcfToMatrix_2.py
(lines 233-267).  Its sentinel string is `'not a cluster'`, modelled by the
same `Verdict.fork` constructor. -/

namespace V2

/-- `is_parent_a_cluster(parent_dict, node_id, true_clusters)` (lines 259-267):
true iff the parent's stored verdict is not `'not a cluster'` and the parent is
not the sentinel `'none'`. -/
def is_parent_a_cluster (d : VDict) (node_id : ℕ) (tc : List (List ℕ)) :
    Except PyErr Bool :=
  match dlookup (find_parent_node node_id tc) d with
  | some v =>
    Except.ok (decide (v ≠ Verdict.fork ∧ find_parent_node node_id tc ≠ none))
  | none => Except.error PyErr.parentNotFound

/-- One iteration of vcfToMatrix_2.py's collapse loop (lines 236-248): four
strict-inequality guards and a final `raise ValueError` that fires when
`my_bootstrap` equals the threshold exactly. -/
def collapseStep (tc : List (List ℕ)) (bv : List ℚ) (τ : ℚ)
    (d : VDict) (n : ℕ) : Except PyErr VDict := do
  let pic ← is_parent_a_cluster d n tc
  let my := bv.getD n 0
  let inh : Except PyErr VDict :=
    match dlookup (find_parent_node n tc) d with
    | some v => Except.ok (d ++ [(some n, v)])
    | none => Except.error PyErr.keyError
  if τ < my ∧ pic = false then
    return d ++ [(some n, Verdict.fork)]
  else if τ < my ∧ pic = true then
    inh
  else if my < τ ∧ pic = false then
    return d ++ [(some n, Verdict.node n)]
  else if my < τ ∧ pic = true then
    inh
  else
    Except.error (PyErr.noCriteria n)

/-- `collapse_clusters` of vcfToMatrix_2.py (lines 233-251). -/
def collapse_clusters (tc : List (List ℕ)) (bv : List ℚ) (τ : ℚ) :
    Except PyErr (List (List ℕ)) := do
  let d ← (List.range bv.length).reverse.foldlM (collapseStep tc bv τ)
    [(none, Verdict.fork)]
  return ((d.map Prod.snd).dedup.filterMap (verdictOut tc))

end V2

/-! ## SupportCalculator: `calculate_bootstrap_values` (lines 216-224) -/

/-- Python `list.index`: index of the first occurrence. -/
def idxOfL (c : List ℕ) : List (List ℕ) → ℕ
  | [] => 0
  | d :: rest => if d = c then 0 else idxOfL c rest + 1

/-- `counts[i] += 1`. -/
def bump (l : List ℚ) (i : ℕ) : List ℚ := l.set i (l.getD i 0 + 1)

/-- The body of the inner loop: count a bootstrap cluster against the first
canonical cluster equal to it, provided it has more than one member. -/
def countStep (tc : List (List ℕ)) (counts : List ℚ) (cluster : List ℕ) :
    List ℚ :=
  if cluster ∈ tc ∧ 1 < cluster.length then bump counts (idxOfL cluster tc)
  else counts

/-- `calculate_bootstrap_values(true_clusters, bootstrap_clusters)` of
vcfToMatrix.py: zero-initialised counts, the double loop, then division by the
number of replicates.  This is the at-least-one-replicate regime (ℚ division
makes `c / 0 = 0`, whereas numpy's `counts /= 0` is `0/0 = NaN`);
`calculate_bootstrap_valuesF` below keeps the NaN. -/
def calculate_bootstrap_values (tc : List (List ℕ))
    (boots : List (List (List ℕ))) : List ℚ :=
  (boots.foldl (fun counts b => b.foldl (countStep tc) counts)
      (List.replicate tc.length 0)).map
    (fun c => c / (boots.length : ℚ))

/-- `calculate_bootstrap_values` with the full float semantics of the final
`counts /= len(bootstrap_clusters)`: with zero replicates every count is 0 and
`0/0` is NaN (`none`); with at least one replicate every value is the finite
rational `c / N` (`some`). -/
def calculate_bootstrap_valuesF (tc : List (List ℕ))
    (boots : List (List (List ℕ))) : List (Option ℚ) :=
  (boots.foldl (fun counts b => b.foldl (countStep tc) counts)
      (List.replicate tc.length 0)).map
    (fun c => if boots.length = 0 then none else some (c / (boots.length : ℚ)))

namespace V2

/-- The inner loop body of vcfToMatrix_2.py's `calculate_bootstrap_values`
(lines 203-210): identical to vcfToMatrix.py's except that it has NO
`len(cluster) > 1` guard, so singleton clusters are scored too. -/
def countStep (tc : List (List ℕ)) (counts : List ℚ) (cluster : List ℕ) :
    List ℚ :=
  if cluster ∈ tc then bump counts (idxOfL cluster tc) else counts

/-- `calculate_bootstrap_values` of vcfToMatrix_2.py (lines 203-210).  Every
replicate's collection contains every singleton leaf, so leaves score N/N. -/
def calculate_bootstrap_values (tc : List (List ℕ))
    (boots : List (List (List ℕ))) : List ℚ :=
  (boots.foldl (fun counts b => b.foldl (V2.countStep tc) counts)
      (List.replicate tc.length 0)).map
    (fun c => c / (boots.length : ℚ))

end V2

/-! ## DistanceMatrixBuilder: `calc_proportion_dist_matrix` (lines 167-177) -/

/-- The non-NaN values of the pair `(i, j)` across the locus axis. -/
def pairVals (d : Tensor) (i j : ℕ) : List ℚ :=
  d.filterMap fun locus => (locus.getD i []).getD j none

/-- One entry of the proportion matrix: `nansum / (n_comps * 2)`, which is the
NaN (`none`) of numpy's `0/0` when the pair has no valid comparison. -/
def propEntry (d : Tensor) (i j : ℕ) : Option ℚ :=
  if (pairVals d i j).length = 0 then none
  else some ((pairVals d i j).sum / (((pairVals d i j).length : ℚ) * 2))

/-- `calc_proportion_dist_matrix(differences)` on an `S`-sample tensor (the
`bootstrap=False` path; the resampling path is `selectLoci` below composed with
this function). -/
def calc_proportion_dist_matrix (d : Tensor) (S : ℕ) : List (List (Option ℚ)) :=
  (List.range S).map fun i => (List.range S).map fun j => propEntry d i j

/-! ## QualityFilter: the pure tail of `get_diff_matrix_from_bcf`
(lines 137-151) and `filter_diff_matrix` (lines 159-165), starting from the
per-locus genotype code matrix (`genotype_matrix`). -/

/-- One locus slice of `np.abs(g[:, :, None] - g[:, None, :])`: NaN absorbs. -/
def diffRow (row : List DVal) : LocusSlice :=
  row.map fun a => row.map fun b =>
    match a, b with
    | some x, some y => some |x - y|
    | _, _ => none

/-- The full difference tensor of a genotype matrix. -/
def diffTensor (g : List (List DVal)) : Tensor := g.map diffRow

/-- The `percent_missing <= max_prop_missing` locus filter (lines 138-139). -/
def lociFilter (g : List (List DVal)) (maxMiss : ℚ) (nSamples : ℕ) :
    List (List DVal) :=
  g.filter fun row =>
    decide (((row.countP fun a => a.isNone) : ℚ) / (nSamples : ℚ) ≤ maxMiss)

/-- `n_snps_per_sample[i]`: the diagonal of the per-pair non-NaN counts. -/
def nSnvsForSample (d : Tensor) (i : ℕ) : ℕ :=
  d.countP fun locus => ((locus.getD i []).getD i none).isSome

/-- `samples_to_keep` (line 161): samples with at least `minSnvs` valid loci. -/
def samples_to_keep (d : Tensor) (minSnvs nSamples : ℕ) : List ℕ :=
  (List.range nSamples).filter fun i => decide (minSnvs ≤ nSnvsForSample d i)

/-- Restriction of the tensor to the kept samples (lines 163-164). -/
def filter_diff_matrix (d : Tensor) (keep : List ℕ) : Tensor :=
  d.map fun locus => keep.map fun i => keep.map fun j =>
    (locus.getD i []).getD j none

/-- The pure core of `get_diff_matrix_from_bcf` after bcf parsing: locus
filter, difference tensor, sample filter, and the `differences.shape[1] == 0`
guard that calls `sys.exit` (lines 146-149). -/
def get_diff_matrix_core (g : List (List DVal)) (minSnvs nSamples : ℕ)
    (maxMiss : ℚ) : Except PyErr Tensor :=
  let d := diffTensor (lociFilter g maxMiss nSamples)
  let keep := samples_to_keep d minSnvs nSamples
  if keep.length = 0 then Except.error (PyErr.systemExit minSnvs)
  else Except.ok (filter_diff_matrix d keep)

/-! ## TopLevelSplitter: `collapse_top_lvl_clusters` (lines 272-297) -/

/-- `collapse_top_lvl_clusters(hclust, bootstrap_values, threshold)`.
The scipy call `cut_tree(hclust, n_clusters=2)` is modelled from its interface:
cutting a binary merge tree into two clusters undoes the last merge, and the
two `compress` lists of ascending sample indices are the two children's member
lists, the group of sample 0 labelled 0.  The `else` branch is the literal
`[list(range(len(bootstrap_values)))]` of line 295. -/
def collapse_top_lvl_clusters (Z : List (ℕ × ℕ)) (bv : List ℚ) (τ : ℚ) :
    List (List ℕ) :=
  let top_lvl := bv.length - 1
  if τ ≤ bv.getD top_lvl 0 then
    let S := Z.length + 1
    let tc := get_cluster_members Z S
    let ga := tc.getD (Z.getLastD (0, 0)).1 []
    let gb := tc.getD (Z.getLastD (0, 0)).2 []
    if 0 ∈ ga then [ga, gb] else [gb, ga]
  else
    [List.range bv.length]

/-! ## BootstrapEngine: `bootstrap_worker`, `get_bootstrap_cluster_members`,
`get_one_bootstrap_cluster_members` (lines 196-213).

The numpy PRNG is an arbitrary deterministic state machine `ch`: given the
state and the locus count it returns the resampled indices and the next state.
`np.random.seed(rand_seed)` sets the state to a function of the seed alone,
modelled (up to renaming of states) by the state being the seed itself.
`scipy.cluster.hierarchy.linkage` is an arbitrary deterministic function `lf`
from the proportion matrix to a merge-child table.  The worker pool is a list
of workers, each with an arbitrary initial PRNG state, each running its share
of the replicate indices in order; `pool.starmap` returns results ordered by
replicate index. -/

/-- `differences[np.random.choice(L, size=L, replace=True)]`. -/
def selectLoci (d : Tensor) (idx : List ℕ) : Tensor := idx.map fun t => d.getD t []

/-- `differences.shape[1]`, the sample count of a tensor. -/
def sampleDim (d : Tensor) : ℕ := (d.getD 0 []).length

/-- `bootstrap_worker(rand_seed, differences)` on a worker whose PRNG state is
`st`: `np.random.seed(rand_seed)` overwrites `st`, the resample indices are
drawn, and one bootstrap pipeline runs.  Returns the member-set collection and
the worker's PRNG state afterwards. -/
def runTask (ch : ℕ → ℕ → List ℕ × ℕ) (lf : List (List (Option ℚ)) → List (ℕ × ℕ))
    (d : Tensor) (_st : ℕ) (i : ℕ) : List (List ℕ) × ℕ :=
  let seeded := i
  let pick := ch seeded d.length
  (get_cluster_members
      (lf (calc_proportion_dist_matrix (selectLoci d pick.1) (sampleDim d)))
      (sampleDim d),
    pick.2)

/-- One worker running its assigned replicate indices in order, threading its
PRNG state; yields `(replicate index, result)` pairs. -/
def runWorker (ch : ℕ → ℕ → List ℕ × ℕ) (lf : List (List (Option ℚ)) → List (ℕ × ℕ))
    (d : Tensor) : ℕ → List ℕ → List (ℕ × List (List ℕ))
  | _, [] => []
  | st, i :: rest =>
    let r := runTask ch lf d st i
    (i, r.1) :: runWorker ch lf d r.2 rest

/-- Retrieval of the result of replicate `i` from the pooled pairs. -/
def rlookup (i : ℕ) : List (ℕ × List (List ℕ)) → Option (List (List ℕ))
  | [] => none
  | (j, r) :: rest => if i = j then some r else rlookup i rest

/-- `get_bootstrap_cluster_members` under a scheduler: `schedule` assigns each
worker its replicate indices in execution order, `inits` their initial PRNG
states; the output lists replicate results in index order, as `starmap` does. -/
def poolRun (ch : ℕ → ℕ → List ℕ × ℕ) (lf : List (List (Option ℚ)) → List (ℕ × ℕ))
    (d : Tensor) (schedule : List (List ℕ)) (inits : List ℕ) (N : ℕ) :
    List (List (List ℕ)) :=
  let results := ((schedule.zip inits).map fun p => runWorker ch lf d p.2 p.1).flatten
  (List.range N).map fun i => (rlookup i results).getD []

/-- The schedule-free value of replicate `i`. -/
def taskResult (ch : ℕ → ℕ → List ℕ × ℕ) (lf : List (List (Option ℚ)) → List (ℕ × ℕ))
    (d : Tensor) (i : ℕ) : List (List ℕ) :=
  (runTask ch lf d 0 i).1

/-! ## Well-formed merge trees -/

/-- The children of all merges, in row order. -/
def childList (Z : List (ℕ × ℕ)) : List ℕ :=
  Z.foldr (fun m acc => m.1 :: m.2 :: acc) []

/-- A well-formed binary merge tree over `S` samples, as scipy's `linkage`
produces: `S - 1` merges, each merging two previously formed nodes, every
non-root node being merged exactly once. -/
def WFTree (S : ℕ) (Z : List (ℕ × ℕ)) : Prop :=
  S = Z.length + 1 ∧
  (∀ k, k < Z.length → (Z.getD k (0, 0)).1 < S + k ∧ (Z.getD k (0, 0)).2 < S + k) ∧
  (childList Z).Perm (List.range (2 * Z.length))

/-- Node `r` is a root of the forest after the first `k` merges. -/
def RootAt (Z : List (ℕ × ℕ)) (S k r : ℕ) : Prop :=
  r < S + k ∧ r ∉ childList (Z.take k)

/-- The member list of node `i` in the tree's membership table. -/
def membersOf (Z : List (ℕ × ℕ)) (S i : ℕ) : List ℕ :=
  (get_cluster_members Z S).getD i []

instance (S : ℕ) (Z : List (ℕ × ℕ)) : Decidable (WFTree S Z) := by
  unfold WFTree; infer_instance

/-! # Theorems -/

/-- C3: the threshold boundary is NOT treated the same way in every
implementation.  In `vcfToMatrix.py` a support exactly equal to τ meets the
threshold (the comparisons are `>=` in `collapse_clusters` line 261 and
`collapse_top_lvl_clusters` line 277): with clusters `[[0],[1],[0,1]]`,
supports `[0,0,1]` and τ = 1 the root is marked fork (so both leaves become
their own clusters) and the top-level splitter does split.  But
`vcfToMatrix_2.py`'s `collapse_clusters` (lines 236-248) guards every branch
with a strict `>` or `<`, so a root support exactly equal to τ falls through
to `raise ValueError("Cluster 2 did not meet any criteria...")` — the code's
own message says this "shouldn't be possible", yet support == τ reaches it. -/
theorem collapse_eq_threshold_behavior :
    collapse_clusters [[0], [1], [0, 1]] [0, 0, 1] 1 = Except.ok [[1], [0]] ∧
    collapse_top_lvl_clusters [(0, 1)] [0, 0, 1] 1 = [[0], [1]] ∧
    V2.collapse_clusters [[0], [1], [0, 1]] [0, 0, 1] 1 =
      Except.error (PyErr.noCriteria 2) := by
  refine ⟨?_, ?_, ?_⟩
  · norm_num [collapse_clusters, buildVerdicts, collapseStep, is_parent_a_fork,
      find_parent_node, fpnFrom, dlookup, verdictOut, List.range, List.range.loop,
      Bind.bind, Except.bind, Functor.map, Except.map, Pure.pure, Except.pure,
      List.dedup_cons_of_mem, List.dedup_cons_of_not_mem, List.filterMap]
  · norm_num [collapse_top_lvl_clusters, get_cluster_members, gcmStep, sortNat,
      List.insertionSort, List.orderedInsert, List.range, List.range.loop]
  · norm_num [V2.collapse_clusters, V2.collapseStep, V2.is_parent_a_cluster,
      find_parent_node, fpnFrom, dlookup, List.range, List.range.loop,
      Bind.bind, Except.bind]

/-- C4: when the root's support misses the threshold, the single group the
splitter outputs is `list(range(len(bootstrap_values)))` (line 295), i.e. all
`2S - 1` node ids, not the `S` samples.  Here S = 2 (tree `[(0,1)]`), the
root support 0 misses τ = 1, and the output group is `[0, 1, 2]`, which is not
the sample set `[0, 1]` — downstream `main` would index `samples[2]` out of
range. -/
theorem top_level_else_branch_bug :
    collapse_top_lvl_clusters [(0, 1)] [0, 0, 0] 1 = [[0, 1, 2]] ∧
    ([[0, 1, 2]] : List (List ℕ)) ≠ [[0, 1]] := by
  constructor
  · norm_num [collapse_top_lvl_clusters, List.range, List.range.loop]
  · decide

/-- C6 counterexample: on a tensor whose off-diagonal pair has no valid
comparison, `calc_proportion_dist_matrix` raises nothing — it returns a matrix
whose entry for that pair is the NaN of numpy's `0/0` (modelled `none`), and
that matrix is what `main` hands to the clustering routine.  No
`DataQualityError` exists anywhere in the code. -/
theorem nan_entry_flows_cex :
    calc_proportion_dist_matrix [[[some 0, none], [none, some 0]]] 2 =
      [[some 0, none], [none, some 0]] ∧
    ((calc_proportion_dist_matrix [[[some 0, none], [none, some 0]]] 2).getD 0
        []).getD 1 (some 0) = none := by
  constructor
  · norm_num [calc_proportion_dist_matrix, propEntry, pairVals, List.range,
      List.range.loop, List.filterMap]
  · norm_num [calc_proportion_dist_matrix, propEntry, pairVals, List.range,
      List.range.loop, List.filterMap]

/-- C6 amended: for every tensor, the matrix entry of a pair is undefined
(`none`, numpy NaN) precisely when the pair has zero non-missing comparisons
across all loci, and otherwise equals sum / (2 × count); the computation never
raises, so the NaN flows to the caller (and thence into clustering). -/
theorem prop_matrix_nan_iff_no_comparisons (d : Tensor) (S i j : ℕ)
    (hi : i < S) (hj : j < S) :
    (((calc_proportion_dist_matrix d S).getD i []).getD j (some 0) = none ↔
      pairVals d i j = []) ∧
    (∀ q : ℚ,
      ((calc_proportion_dist_matrix d S).getD i []).getD j (some 0) = some q →
        q = (pairVals d i j).sum / (((pairVals d i j).length : ℚ) * 2)) := by
  have hrow : (calc_proportion_dist_matrix d S).getD i [] =
      (List.range S).map fun j => propEntry d i j := by
    rw [calc_proportion_dist_matrix, List.getD_eq_getElem?_getD,
      List.getElem?_map, List.getElem?_range hi]
    rfl
  have hentry : ((calc_proportion_dist_matrix d S).getD i []).getD j (some 0) =
      propEntry d i j := by
    rw [hrow, List.getD_eq_getElem?_getD, List.getElem?_map,
      List.getElem?_range hj]
    rfl
  rw [hentry]
  constructor
  · rw [propEntry]
    split
    · next h => exact iff_of_true rfl (List.length_eq_zero.mp h)
    · next h => exact iff_of_false (by simp) fun hc => h (by simp [hc])
  · intro q hq
    rw [propEntry] at hq
    split at hq
    · cases hq
    · exact (Option.some.injEq _ _ ▸ hq).symm

/-- C6 amended, witnessed at the concrete all-missing-pair tensor. -/
theorem prop_matrix_nan_iff_witness :
    0 < 2 ∧ 1 < 2 ∧
    ((((calc_proportion_dist_matrix [[[some 0, none], [none, some 0]]] 2).getD 0
          []).getD 1 (some 0) = none ↔
        pairVals [[[some 0, none], [none, some 0]]] 0 1 = []) ∧
      (∀ q : ℚ,
        (((calc_proportion_dist_matrix [[[some 0, none], [none, some 0]]] 2).getD
              0 []).getD 1 (some 0) = some q →
          q = (pairVals [[[some 0, none], [none, some 0]]] 0 1).sum /
            (((pairVals [[[some 0, none], [none, some 0]]] 0 1).length : ℚ) * 2)))) :=
  ⟨by norm_num, by norm_num,
    prop_matrix_nan_iff_no_comparisons [[[some 0, none], [none, some 0]]] 2 0 1
      (by norm_num) (by norm_num)⟩

/-- C7 counterexample: a genotype matrix for which exactly one sample survives
filtering (sample 1's only genotype is missing, `min_snvs = 1`).  The guard of
`get_diff_matrix_from_bcf` tests `differences.shape[1] == 0` only, so the run
continues normally with a single usable sample instead of aborting. -/
theorem one_sample_not_rejected_cex :
    samples_to_keep (diffTensor (lociFilter [[some 0, none]] (9 / 10) 2)) 1 2 =
      [0] ∧
    get_diff_matrix_core [[some 0, none]] 1 2 (9 / 10) =
      Except.ok [[[some 0]]] := by
  constructor
  · norm_num [samples_to_keep, nSnvsForSample, diffTensor, diffRow, lociFilter,
      List.range, List.range.loop, List.filter, List.countP, List.countP.go]
  · norm_num [get_diff_matrix_core, samples_to_keep, nSnvsForSample, diffTensor,
      diffRow, lociFilter, filter_diff_matrix, List.range, List.range.loop,
      List.filter, List.countP, List.countP.go]

/-- C7 amended: `get_diff_matrix_from_bcf` aborts (with the `sys.exit` message
naming the `min_snvs_for_cluster` threshold and the input file) exactly when
the filtered sample count is zero; in particular a filtered sample count of
one is not rejected, and no check for zero surviving loci exists
(`vcfToMatrix_2.py` performs no such check at all). -/
theorem quality_guard_zero_only (g : List (List DVal)) (minSnvs nSamples : ℕ)
    (maxMiss : ℚ) :
    ((∃ e, get_diff_matrix_core g minSnvs nSamples maxMiss = Except.error e) ↔
      samples_to_keep (diffTensor (lociFilter g maxMiss nSamples)) minSnvs
          nSamples = []) ∧
    ((samples_to_keep (diffTensor (lociFilter g maxMiss nSamples)) minSnvs
          nSamples).length = 1 →
      ∃ t, get_diff_matrix_core g minSnvs nSamples maxMiss = Except.ok t) := by
  constructor
  · rw [get_diff_matrix_core]
    split
    · next h => exact iff_of_true ⟨_, rfl⟩ (List.length_eq_zero.mp h)
    · next h => exact iff_of_false (by simp) fun hc => h (by simp [hc])
  · intro h1
    rw [get_diff_matrix_core]
    split
    · next h => omega
    · exact ⟨_, rfl⟩

/-! ## The collapse loop computes the spec §4.7 rule -/

theorem fpnFrom_some (tc : List (List ℕ)) (x : ℕ) :
    ∀ steps i p, fpnFrom tc x i steps = some p →
      i ≤ p ∧ p < i + steps ∧ x ∈ tc.getD p [] := by
  intro steps
  induction steps with
  | zero => intro i p h; exact absurd h (by simp [fpnFrom])
  | succ s ih =>
    intro i p h
    simp only [fpnFrom] at h
    by_cases hx : x ∈ tc.getD i []
    · rw [if_pos hx] at h
      cases h
      exact ⟨le_refl _, by omega, hx⟩
    · rw [if_neg hx] at h
      obtain ⟨h1, h2, h3⟩ := ih (i + 1) p h
      exact ⟨by omega, by omega, h3⟩

theorem fpnFrom_found (tc : List (List ℕ)) (x : ℕ) :
    ∀ steps i m, i ≤ m → m < i + steps → x ∈ tc.getD m [] →
      ∃ p, fpnFrom tc x i steps = some p ∧ p ≤ m := by
  intro steps
  induction steps with
  | zero => intro i m h1 h2 _; omega
  | succ s ih =>
    intro i m h1 h2 hx
    simp only [fpnFrom]
    by_cases hxi : x ∈ tc.getD i []
    · exact ⟨i, by rw [if_pos hxi], h1⟩
    · have hne : i ≠ m := fun he => hxi (he ▸ hx)
      obtain ⟨p, hp, hpm⟩ := ih (i + 1) m (by omega) (by omega) hx
      exact ⟨p, by rw [if_neg hxi]; exact hp, hpm⟩

theorem find_parent_node_some {tc : List (List ℕ)} {n p : ℕ}
    (h : find_parent_node n tc = some p) :
    n < p ∧ p < tc.length ∧ (tc.getD n []).headD 0 ∈ tc.getD p [] := by
  obtain ⟨h1, h2, h3⟩ := fpnFrom_some tc _ _ _ _ h
  exact ⟨by omega, by omega, h3⟩

theorem find_parent_node_found {tc : List (List ℕ)} {n m : ℕ}
    (hm : n < m) (hlen : m < tc.length)
    (hx : (tc.getD n []).headD 0 ∈ tc.getD m []) :
    ∃ p, find_parent_node n tc = some p ∧ p ≤ m := by
  obtain ⟨p, hp, hpm⟩ :=
    fpnFrom_found tc _ (tc.length - (n + 1)) (n + 1) m (by omega) (by omega) hx
  exact ⟨p, hp, hpm⟩

theorem goV_stable (tc : List (List ℕ)) (bv : List ℚ) (τ : ℚ) :
    ∀ f₁ f₂ n, 1 ≤ f₁ → tc.length - n ≤ f₁ → 1 ≤ f₂ → tc.length - n ≤ f₂ →
      goV tc bv τ f₁ n = goV tc bv τ f₂ n := by
  intro f₁
  induction f₁ with
  | zero => intro f₂ n h1 _ _ _; omega
  | succ a ih =>
    intro f₂ n _ ha hb1 hb
    obtain ⟨b, rfl⟩ : ∃ b, f₂ = b + 1 := ⟨f₂ - 1, by omega⟩
    simp only [goV]
    cases hp : find_parent_node n tc with
    | none => rfl
    | some p =>
      obtain ⟨hnp, hplen, -⟩ := find_parent_node_some hp
      dsimp only
      rw [ih b p (by omega) (by omega) (by omega) (by omega)]

theorem ruleVerdict_root (tc : List (List ℕ)) (bv : List ℚ) (τ : ℚ) (n : ℕ)
    (h : find_parent_node n tc = none) :
    ruleVerdict tc bv τ n =
      if τ ≤ bv.getD n 0 then Verdict.fork else Verdict.node n := by
  show goV tc bv τ (tc.length + 1) n = _
  simp only [goV]
  rw [h]

theorem goV_len_eq_rule (tc : List (List ℕ)) (bv : List ℚ) (τ : ℚ) (p : ℕ)
    (hplen : p < tc.length) :
    goV tc bv τ tc.length p = ruleVerdict tc bv τ p :=
  goV_stable tc bv τ tc.length (tc.length + 1) p (by omega) (by omega) (by omega)
    (by omega)

theorem ruleVerdict_fork_parent (tc : List (List ℕ)) (bv : List ℚ) (τ : ℚ)
    (n p : ℕ) (hp : find_parent_node n tc = some p)
    (hf : ruleVerdict tc bv τ p = Verdict.fork) :
    ruleVerdict tc bv τ n =
      if τ ≤ bv.getD n 0 then Verdict.fork else Verdict.node n := by
  obtain ⟨hnp, hplen, -⟩ := find_parent_node_some hp
  show goV tc bv τ (tc.length + 1) n = _
  simp only [goV]
  rw [hp]
  dsimp only
  rw [goV_len_eq_rule tc bv τ p hplen, hf]

theorem ruleVerdict_inherit (tc : List (List ℕ)) (bv : List ℚ) (τ : ℚ)
    (n p m : ℕ) (hp : find_parent_node n tc = some p)
    (hm : ruleVerdict tc bv τ p = Verdict.node m) :
    ruleVerdict tc bv τ n = Verdict.node m := by
  obtain ⟨hnp, hplen, -⟩ := find_parent_node_some hp
  show goV tc bv τ (tc.length + 1) n = _
  simp only [goV]
  rw [hp]
  dsimp only
  rw [goV_len_eq_rule tc bv τ p hplen, hm]

theorem dlookup_some_cons_none (v : Verdict) (rest : VDict) (p : ℕ) :
    dlookup (some p) ((none, v) :: rest) = dlookup (some p) rest := by
  simp [dlookup]

theorem dlookup_none_cons_none (v : Verdict) (rest : VDict) :
    dlookup none ((none, v) :: rest) = some v := by
  simp [dlookup]

theorem dlookup_mapped (V : ℕ → Verdict) (p : ℕ) :
    ∀ l : List ℕ, dlookup (some p) (l.map fun j => (some j, V j)) =
      if p ∈ l then some (V p) else none := by
  intro l
  induction l with
  | nil => simp [dlookup]
  | cons a rest ih =>
    simp only [List.map_cons, dlookup]
    by_cases hpa : p = a
    · subst hpa; simp
    · rw [if_neg (by simpa using hpa), ih]
      simp [List.mem_cons, hpa]

theorem dictDown_succ (tc : List (List ℕ)) (bv : List ℚ) (τ : ℚ) (k : ℕ)
    (hk : k < bv.length) :
    dictDown tc bv τ k =
      dictDown tc bv τ (k + 1) ++ [(some k, ruleVerdict tc bv τ k)] := by
  unfold dictDown
  have h1 : bv.length - k = (bv.length - (k + 1)) + 1 := by omega
  rw [h1, List.range'_succ]
  simp [List.reverse_cons]

theorem dictDown_lookup_sentinel (tc : List (List ℕ)) (bv : List ℚ) (τ : ℚ)
    (k : ℕ) : dlookup none (dictDown tc bv τ k) = some Verdict.fork :=
  dlookup_none_cons_none _ _

theorem dictDown_lookup (tc : List (List ℕ)) (bv : List ℚ) (τ : ℚ) (k p : ℕ)
    (hkp : k ≤ p) (hplen : p < bv.length) :
    dlookup (some p) (dictDown tc bv τ k) =
      some (ruleVerdict tc bv τ p) := by
  unfold dictDown
  rw [dlookup_some_cons_none, dlookup_mapped, if_pos]
  rw [List.mem_reverse, List.mem_range'_1]
  omega

theorem collapseStep_at (tc : List (List ℕ)) (bv : List ℚ) (τ : ℚ)
    (hlen : tc.length = bv.length) (k : ℕ) (hk : k < bv.length) :
    collapseStep tc bv τ (dictDown tc bv τ (k + 1)) k =
      Except.ok (dictDown tc bv τ k) := by
  rw [dictDown_succ tc bv τ k hk]
  simp only [collapseStep, is_parent_a_fork, Bind.bind, Except.bind, Pure.pure,
    Except.pure]
  cases hp : find_parent_node k tc with
  | none =>
    rw [dictDown_lookup_sentinel, ruleVerdict_root tc bv τ k hp]
    by_cases hτ : τ ≤ bv[k]?.getD 0 <;> simp [hτ]
  | some p =>
    obtain ⟨hkp, hplen, -⟩ := find_parent_node_some hp
    rw [dictDown_lookup tc bv τ (k + 1) p (by omega) (by omega)]
    cases hvp : ruleVerdict tc bv τ p with
    | fork =>
      rw [ruleVerdict_fork_parent tc bv τ k p hp hvp]
      by_cases hτ : τ ≤ bv[k]?.getD 0 <;> simp [hτ]
    | node m =>
      rw [ruleVerdict_inherit tc bv τ k p m hp hvp]
      simp

theorem collapse_loop (tc : List (List ℕ)) (bv : List ℚ) (τ : ℚ)
    (hlen : tc.length = bv.length) :
    ∀ m k, k + m = bv.length →
      (List.range' k m).reverse.foldlM (collapseStep tc bv τ)
          [(none, Verdict.fork)] =
        Except.ok (dictDown tc bv τ k) := by
  intro m
  induction m with
  | zero =>
    intro k hk
    have h0 : bv.length - k = 0 := by omega
    simp [List.range', dictDown, h0, Pure.pure, Except.pure]
  | succ s ih =>
    intro k hk
    rw [List.range'_succ, List.reverse_cons, List.foldlM_append]
    rw [ih (k + 1) (by omega)]
    simp only [Bind.bind, Except.bind, List.foldlM_cons, List.foldlM_nil]
    rw [collapseStep_at tc bv τ hlen k (by omega)]
    rfl

theorem buildVerdicts_eq (tc : List (List ℕ)) (bv : List ℚ) (τ : ℚ)
    (hlen : tc.length = bv.length) :
    buildVerdicts tc bv τ = Except.ok (dictDown tc bv τ 0) := by
  rw [buildVerdicts, List.range_eq_range']
  exact collapse_loop tc bv τ hlen bv.length 0 (by omega)

theorem dedup_fork_filterMap (tc : List (List ℕ)) (L : List Verdict) :
    ((Verdict.fork :: L).dedup.filterMap (verdictOut tc)) =
      L.dedup.filterMap (verdictOut tc) := by
  by_cases h : Verdict.fork ∈ L
  · rw [List.dedup_cons_of_mem h]
  · rw [List.dedup_cons_of_not_mem h, List.filterMap_cons]
    rfl

theorem collapse_clusters_ok (tc : List (List ℕ)) (bv : List ℚ) (τ : ℚ)
    (hlen : tc.length = bv.length) :
    collapse_clusters tc bv τ = Except.ok (ruleClusters tc bv τ) := by
  rw [collapse_clusters]
  simp only [Bind.bind, Except.bind, buildVerdicts_eq tc bv τ hlen, Pure.pure,
    Except.pure]
  rw [dictDown]
  simp only [List.map_cons, List.map_map]
  have hcomp : (Prod.snd ∘ fun j => ((some j : Option ℕ), ruleVerdict tc bv τ j)) =
      ruleVerdict tc bv τ := rfl
  rw [hcomp, dedup_fork_filterMap, ruleClusters, List.range_eq_range',
    Nat.sub_zero]

/-- C1: `collapse_clusters` of vcfToMatrix.py implements exactly the spec §4.7
propagation rule.  Walking node ids in descending order (the root, whose
`find_parent_node` is the sentinel, handled by the same `'fork'` rule first),
the verdict of each node `n` is: if the verdict of `parent(n)` is `'fork'`,
then `'fork'` when `support(n) ≥ τ` and `n`'s own id when `support(n) < τ`;
if the verdict of `parent(n)` is a finalized id `m`, then exactly `m`.  The
returned clusters are the member lists of the distinct non-`'fork'` verdict
values (`ruleClusters`).  `hlen` is the alignment `len(true_clusters) =
len(bootstrap_values)` that holds at every call site. -/
theorem collapse_implements_spec_rule (tc : List (List ℕ)) (bv : List ℚ)
    (τ : ℚ) (hlen : tc.length = bv.length) :
    collapse_clusters tc bv τ = Except.ok (ruleClusters tc bv τ) ∧
    ∀ n, n < bv.length →
      (find_parent_node n tc = none →
        ruleVerdict tc bv τ n =
          if τ ≤ bv.getD n 0 then Verdict.fork else Verdict.node n) ∧
      ∀ p, find_parent_node n tc = some p →
        (ruleVerdict tc bv τ p = Verdict.fork →
          ruleVerdict tc bv τ n =
            if τ ≤ bv.getD n 0 then Verdict.fork else Verdict.node n) ∧
        ∀ m, ruleVerdict tc bv τ p = Verdict.node m →
          ruleVerdict tc bv τ n = Verdict.node m :=
  ⟨collapse_clusters_ok tc bv τ hlen, fun n _ =>
    ⟨fun h => ruleVerdict_root tc bv τ n h, fun p hp =>
      ⟨fun hf => ruleVerdict_fork_parent tc bv τ n p hp hf,
        fun m hm => ruleVerdict_inherit tc bv τ n p m hp hm⟩⟩⟩

/-- C1 witnessed on the concrete two-sample tree. -/
theorem collapse_implements_spec_rule_witness :
    ([[0], [1], [0, 1]] : List (List ℕ)).length = ([0, 0, 1] : List ℚ).length ∧
    (collapse_clusters [[0], [1], [0, 1]] [0, 0, 1] 1 =
        Except.ok (ruleClusters [[0], [1], [0, 1]] [0, 0, 1] 1) ∧
      ∀ n, n < ([0, 0, 1] : List ℚ).length →
        (find_parent_node n [[0], [1], [0, 1]] = none →
          ruleVerdict [[0], [1], [0, 1]] [0, 0, 1] 1 n =
            if (1 : ℚ) ≤ ([0, 0, 1] : List ℚ).getD n 0 then Verdict.fork
            else Verdict.node n) ∧
        ∀ p, find_parent_node n [[0], [1], [0, 1]] = some p →
          (ruleVerdict [[0], [1], [0, 1]] [0, 0, 1] 1 p = Verdict.fork →
            ruleVerdict [[0], [1], [0, 1]] [0, 0, 1] 1 n =
              if (1 : ℚ) ≤ ([0, 0, 1] : List ℚ).getD n 0 then Verdict.fork
              else Verdict.node n) ∧
          ∀ m, ruleVerdict [[0], [1], [0, 1]] [0, 0, 1] 1 p = Verdict.node m →
            ruleVerdict [[0], [1], [0, 1]] [0, 0, 1] 1 n = Verdict.node m) :=
  ⟨rfl, collapse_implements_spec_rule [[0], [1], [0, 1]] [0, 0, 1] 1 rfl⟩

/-! ### The float model coincides with the rational model on NaN-free supports -/

theorem map_some_getD (bvQ : List ℚ) (n : ℕ) (hn : n < bvQ.length) :
    (bvQ.map some).getD n none = some (bvQ.getD n 0) := by
  rw [List.getD_eq_getElem?_getD, List.getElem?_map,
    List.getElem?_eq_getElem hn, List.getD_eq_getElem?_getD,
    List.getElem?_eq_getElem hn]
  rfl

theorem eq_map_some_of_ne_none :
    ∀ bv : List (Option ℚ), (∀ o ∈ bv, o ≠ none) →
      bv = (bv.map fun o => o.getD 0).map some := by
  intro bv
  induction bv with
  | nil => intro _; rfl
  | cons o rest ih =>
    intro h
    rw [List.map_cons, List.map_cons,
      ← ih fun o' ho' => h o' (List.mem_cons.mpr (Or.inr ho'))]
    cases o with
    | none => exact absurd rfl (h none (List.mem_cons_self _ _))
    | some q => rfl

theorem foldlM_congr_except {α β ε : Type} (f g : β → α → Except ε β) :
    ∀ (l : List α) (b : β), (∀ x ∈ l, ∀ d, f d x = g d x) →
      l.foldlM f b = l.foldlM g b := by
  intro l
  induction l with
  | nil => intro b _; rfl
  | cons x rest ih =>
    intro b h
    rw [List.foldlM_cons, List.foldlM_cons, h x (List.mem_cons_self _ _) b]
    simp only [Bind.bind, Except.bind]
    cases hg : g b x with
    | error e => rfl
    | ok b' => exact ih b' fun y hy d => h y (List.mem_cons.mpr (Or.inr hy)) d

theorem collapseStepF_some (tc : List (List ℕ)) (bvQ : List ℚ) (τ : ℚ)
    (d : VDict) (n : ℕ) (hn : n < bvQ.length) :
    collapseStepF tc (bvQ.map some) τ d n = collapseStep tc bvQ τ d n := by
  simp only [collapseStepF, collapseStep, map_some_getD bvQ n hn, Bind.bind,
    Except.bind]
  cases hpf : is_parent_a_fork d n tc with
  | error e => rfl
  | ok pif =>
    cases pif with
    | false => rfl
    | true =>
      by_cases hτ : τ ≤ bvQ[n]?.getD 0
      · simp [cmpGE, hτ]
      · simp [cmpGE, cmpLT, hτ, not_le.mp hτ]

theorem collapse_clustersF_some (tc : List (List ℕ)) (bvQ : List ℚ) (τ : ℚ) :
    collapse_clustersF tc (bvQ.map some) τ = collapse_clusters tc bvQ τ := by
  rw [collapse_clustersF, collapse_clusters, buildVerdicts, List.length_map]
  have hfold := foldlM_congr_except (collapseStepF tc (bvQ.map some) τ)
    (collapseStep tc bvQ τ) (List.range bvQ.length).reverse
    [(none, Verdict.fork)]
    fun x hx d => collapseStepF_some tc bvQ τ d x
      (List.mem_range.mp (List.mem_reverse.mp hx))
  rw [hfold]

theorem calculate_bootstrap_valuesF_eq (tc : List (List ℕ))
    (boots : List (List (List ℕ))) (hb : boots ≠ []) :
    calculate_bootstrap_valuesF tc boots =
      (calculate_bootstrap_values tc boots).map some := by
  rw [calculate_bootstrap_valuesF, calculate_bootstrap_values, List.map_map]
  refine List.map_congr_left ?_
  intro c _
  rw [if_neg fun h => hb (List.length_eq_zero.mp h)]
  rfl

/-- C10 counterexample: the `ValueError` branch of `is_parent_a_fork` IS
reachable.  With `--n_bootstrap 0` the support vector is `counts /= 0`, i.e.
all NaN; the root (fork-parented via the `'none'` sentinel) then satisfies
neither `>= threshold` nor `< threshold` and receives no verdict, and the next
node's parent lookup finds the root absent from `parent_dict` and raises
"Parent node 2 not found in parent_dict" — at the perfectly ordinary
threshold 1. -/
theorem parent_value_error_reachable_cex :
    calculate_bootstrap_valuesF [[0], [1], [0, 1]] [] = [none, none, none] ∧
    collapse_clustersF [[0], [1], [0, 1]]
        (calculate_bootstrap_valuesF [[0], [1], [0, 1]] []) 1 =
      Except.error PyErr.parentNotFound := ⟨rfl, rfl⟩

/-- C10 amended: with `true_clusters` and `bootstrap_values` aligned (as at
every call site, where `counts = np.zeros(len(true_clusters))`) and every
bootstrap value an actual number — as whenever at least one replicate ran —
`collapse_clusters` returns normally on every input: nodes are processed in
strictly descending id order and `find_parent_node` yields either `'none'`
(present from initialization) or an id greater than the current node, hence
one already given a verdict.  Only an all-NaN support vector (zero replicates)
voids the "already given a verdict" step and reaches the `ValueError`. -/
theorem parent_lookup_never_fails (tc : List (List ℕ)) (bv : List (Option ℚ))
    (τ : ℚ) (hlen : tc.length = bv.length) (hnum : ∀ o ∈ bv, o ≠ none) :
    ∃ out, collapse_clustersF tc bv τ = Except.ok out := by
  rw [eq_map_some_of_ne_none bv hnum, collapse_clustersF_some]
  refine ⟨_, collapse_clusters_ok tc _ τ ?_⟩
  rw [List.length_map]
  exact hlen

/-- C10 amended, witnessed on the concrete two-sample tree with NaN-free
supports. -/
theorem parent_lookup_never_fails_witness :
    ([[0], [1], [0, 1]] : List (List ℕ)).length =
      ([some 0, some 0, some 1] : List (Option ℚ)).length ∧
    (∀ o ∈ ([some 0, some 0, some 1] : List (Option ℚ)), o ≠ none) ∧
    ∃ out, collapse_clustersF [[0], [1], [0, 1]] [some 0, some 0, some 1] 1 =
      Except.ok out :=
  ⟨rfl, by simp, parent_lookup_never_fails [[0], [1], [0, 1]]
    [some 0, some 0, some 1] 1 rfl (by simp)⟩

/-- C7 amended, witnessed at the one-surviving-sample input. -/
theorem quality_guard_zero_only_witness :
    ((∃ e, get_diff_matrix_core [[some 0, none]] 1 2 (9 / 10) = Except.error e) ↔
      samples_to_keep (diffTensor (lociFilter [[some 0, none]] (9 / 10) 2)) 1 2 =
        []) ∧
    ((samples_to_keep (diffTensor (lociFilter [[some 0, none]] (9 / 10) 2)) 1
          2).length = 1 →
      ∃ t, get_diff_matrix_core [[some 0, none]] 1 2 (9 / 10) = Except.ok t) :=
  quality_guard_zero_only [[some 0, none]] 1 2 (9 / 10)

/-! ## Structure of well-formed merge trees -/

theorem sortNat_perm (l : List ℕ) : (sortNat l).Perm l :=
  List.perm_insertionSort _ l

theorem mem_sortNat {x : ℕ} {l : List ℕ} : x ∈ sortNat l ↔ x ∈ l :=
  (sortNat_perm l).mem_iff

theorem sortNat_length (l : List ℕ) : (sortNat l).length = l.length :=
  (sortNat_perm l).length_eq

theorem sortNat_sorted (l : List ℕ) : List.Sorted (· ≤ ·) (sortNat l) :=
  List.sorted_insertionSort _ l

theorem gcm_foldl_length (Z : List (ℕ × ℕ)) :
    ∀ acc : List (List ℕ), (Z.foldl gcmStep acc).length = acc.length + Z.length := by
  induction Z with
  | nil => intro acc; simp
  | cons m rest ih =>
    intro acc
    rw [List.foldl_cons, ih]
    simp [gcmStep]
    omega

theorem get_cluster_members_length (Z : List (ℕ × ℕ)) (S : ℕ) :
    (get_cluster_members Z S).length = S + Z.length := by
  rw [get_cluster_members, gcm_foldl_length]
  simp

theorem gcm_foldl_getD (Z : List (ℕ × ℕ)) :
    ∀ (acc : List (List ℕ)) (i : ℕ), i < acc.length →
      (Z.foldl gcmStep acc).getD i [] = acc.getD i [] := by
  induction Z with
  | nil => intro acc i _; rfl
  | cons m rest ih =>
    intro acc i hi
    rw [List.foldl_cons, ih _ i (by simp [gcmStep]; omega)]
    exact List.getD_append _ _ _ _ hi

theorem gcm_leaf (Z : List (ℕ × ℕ)) (S s : ℕ) (hs : s < S) :
    membersOf Z S s = [s] := by
  rw [membersOf, get_cluster_members, gcm_foldl_getD _ _ s (by simpa using hs)]
  rw [List.getD_eq_getElem?_getD, List.getElem?_map, List.getElem?_range hs]
  rfl

theorem take_succ_getD (Z : List (ℕ × ℕ)) (m : ℕ) (hm : m < Z.length) :
    Z.take (m + 1) = Z.take m ++ [Z.getD m (0, 0)] := by
  rw [List.getD_eq_getElem?_getD, List.getElem?_eq_getElem hm, Option.getD_some,
    ← List.take_concat_get Z m hm, List.concat_eq_append]

theorem gcm_take_getD (Z : List (ℕ × ℕ)) (S k i : ℕ) (hk : k ≤ Z.length)
    (hi : i < S + k) :
    membersOf Z S i = membersOf (Z.take k) S i := by
  rw [membersOf, membersOf]
  conv_lhs => rw [get_cluster_members, ← List.take_append_drop k Z,
    List.foldl_append]
  have hl : i < ((Z.take k).foldl gcmStep ((List.range S).map fun x => [x])).length := by
    rw [gcm_foldl_length]
    simp only [List.length_map, List.length_range, List.length_take]
    omega
  rw [gcm_foldl_getD _ _ i hl]
  rfl

theorem gcm_merge (Z : List (ℕ × ℕ)) (S k : ℕ) (hk : k < Z.length)
    (ha : (Z.getD k (0, 0)).1 < S + k) (hb : (Z.getD k (0, 0)).2 < S + k) :
    membersOf Z S (S + k) =
      sortNat (membersOf Z S (Z.getD k (0, 0)).1 ++
        membersOf Z S (Z.getD k (0, 0)).2) := by
  rw [gcm_take_getD Z S (k + 1) (S + k) (by omega) (by omega),
    gcm_take_getD Z S k (Z.getD k (0, 0)).1 (by omega) ha,
    gcm_take_getD Z S k (Z.getD k (0, 0)).2 (by omega) hb]
  rw [membersOf, take_succ_getD Z k hk, get_cluster_members, List.foldl_append,
    List.foldl_cons, List.foldl_nil]
  rw [show (Z.take k).foldl gcmStep ((List.range S).map fun x => [x]) =
    get_cluster_members (Z.take k) S from rfl]
  rw [gcmStep]
  have hlen : (get_cluster_members (Z.take k) S).length = S + k := by
    rw [get_cluster_members_length, List.length_take]
    omega
  rw [List.getD_eq_getElem?_getD, List.getElem?_append_right (by omega),
    hlen, Nat.sub_self]
  rfl

theorem childList_append (Z₁ Z₂ : List (ℕ × ℕ)) :
    childList (Z₁ ++ Z₂) = childList Z₁ ++ childList Z₂ := by
  induction Z₁ with
  | nil => rfl
  | cons m rest ih => simp [childList] at ih ⊢; exact ih

theorem childList_pair (m : ℕ × ℕ) : childList [m] = [m.1, m.2] := rfl

theorem childList_take_bound (Z : List (ℕ × ℕ)) (S : ℕ) (hwf : WFTree S Z) :
    ∀ m, m ≤ Z.length → ∀ x ∈ childList (Z.take m), ∃ j, j < m ∧ x < S + j := by
  intro m
  induction m with
  | zero => intro _ x hx; simp [childList] at hx
  | succ mm ih =>
    intro hm x hx
    rw [take_succ_getD Z mm (by omega), childList_append, childList_pair] at hx
    rcases List.mem_append.mp hx with h | h
    · obtain ⟨j, hj, hxj⟩ := ih (by omega) x h
      exact ⟨j, by omega, hxj⟩
    · obtain ⟨hc1, hc2⟩ := hwf.2.1 mm (by omega)
      rcases List.mem_pair.mp h with rfl | rfl
      · exact ⟨mm, by omega, hc1⟩
      · exact ⟨mm, by omega, hc2⟩

theorem childList_nodup (Z : List (ℕ × ℕ)) (S : ℕ) (hwf : WFTree S Z) :
    (childList Z).Nodup :=
  (hwf.2.2.nodup_iff).mpr (List.nodup_range _)

theorem drop_cons_getD (Z : List (ℕ × ℕ)) (k : ℕ) (hk : k < Z.length) :
    Z.drop k = Z.getD k (0, 0) :: Z.drop (k + 1) := by
  rw [List.getD_eq_getElem?_getD, List.getElem?_eq_getElem hk]
  exact List.drop_eq_getElem_cons hk

theorem childList_split (Z : List (ℕ × ℕ)) (k : ℕ) (hk : k < Z.length) :
    childList Z = childList (Z.take k) ++
      ((Z.getD k (0, 0)).1 :: (Z.getD k (0, 0)).2 :: childList (Z.drop (k + 1))) := by
  conv_lhs => rw [← List.take_append_drop k Z, childList_append,
    drop_cons_getD Z k hk]
  rfl

theorem child_root (Z : List (ℕ × ℕ)) (S : ℕ) (hwf : WFTree S Z) (k : ℕ)
    (hk : k < Z.length) :
    RootAt Z S k (Z.getD k (0, 0)).1 ∧ RootAt Z S k (Z.getD k (0, 0)).2 ∧
      (Z.getD k (0, 0)).1 ≠ (Z.getD k (0, 0)).2 := by
  have hnd := childList_nodup Z S hwf
  rw [childList_split Z k hk] at hnd
  rw [List.nodup_append] at hnd
  obtain ⟨-, hnd2, hdisj⟩ := hnd
  obtain ⟨ha, hb⟩ := hwf.2.1 k hk
  refine ⟨⟨ha, fun hmem => ?_⟩, ⟨hb, fun hmem => ?_⟩, ?_⟩
  · exact hdisj hmem (by simp)
  · exact hdisj hmem (by simp)
  · intro he
    rw [List.nodup_cons] at hnd2
    exact hnd2.1 (List.mem_cons.mpr (Or.inl he))

theorem root_succ_iff (Z : List (ℕ × ℕ)) (S : ℕ) (hwf : WFTree S Z) (k : ℕ)
    (hk : k < Z.length) (r : ℕ) :
    RootAt Z S (k + 1) r ↔ r = S + k ∨
      (RootAt Z S k r ∧ r ≠ (Z.getD k (0, 0)).1 ∧ r ≠ (Z.getD k (0, 0)).2) := by
  rw [RootAt, RootAt, take_succ_getD Z k hk, childList_append, childList_pair]
  constructor
  · rintro ⟨hr, hnm⟩
    by_cases hSk : r = S + k
    · exact Or.inl hSk
    · refine Or.inr ⟨⟨by omega, fun h => hnm (List.mem_append.mpr (Or.inl h))⟩,
        fun h => hnm ?_, fun h => hnm ?_⟩
      · exact List.mem_append.mpr (Or.inr (by simp [h]))
      · exact List.mem_append.mpr (Or.inr (by simp [h]))
  · rintro (rfl | ⟨⟨hr, hnm⟩, hna, hnb⟩)
    · refine ⟨by omega, fun hmem => ?_⟩
      rcases List.mem_append.mp hmem with h | h
      · obtain ⟨j, hj, hxj⟩ := childList_take_bound Z S hwf k (by omega) _ h
        omega
      · obtain ⟨ha, hb⟩ := hwf.2.1 k hk
        rcases List.mem_pair.mp h with he | he <;> omega
    · refine ⟨by omega, fun hmem => ?_⟩
      rcases List.mem_append.mp hmem with h | h
      · exact hnm h
      · rcases List.mem_pair.mp h with he | he
        · exact hna he
        · exact hnb he


theorem members_lt_S (Z : List (ℕ × ℕ)) (S : ℕ) (hwf : WFTree S Z) :
    ∀ k, k ≤ Z.length → ∀ i, i < S + k → ∀ x ∈ membersOf Z S i, x < S := by
  intro k
  induction k with
  | zero =>
    intro _ i hi x hx
    rw [gcm_leaf Z S i (by omega)] at hx
    simp at hx
    omega
  | succ kk ih =>
    intro hk i hi x hx
    by_cases hik : i < S + kk
    · exact ih (by omega) i hik x hx
    · have hieq : i = S + kk := by omega
      subst hieq
      obtain ⟨ha, hb⟩ := hwf.2.1 kk (by omega)
      rw [gcm_merge Z S kk (by omega) ha hb, mem_sortNat, List.mem_append] at hx
      rcases hx with h | h
      · exact ih (by omega) _ ha x h
      · exact ih (by omega) _ hb x h

theorem members_ne_nil (Z : List (ℕ × ℕ)) (S : ℕ) (hwf : WFTree S Z) :
    ∀ k, k ≤ Z.length → ∀ i, i < S + k → membersOf Z S i ≠ [] := by
  intro k
  induction k with
  | zero =>
    intro _ i hi
    rw [gcm_leaf Z S i (by omega)]
    simp
  | succ kk ih =>
    intro hk i hi
    by_cases hik : i < S + kk
    · exact ih (by omega) i hik
    · have hieq : i = S + kk := by omega
      subst hieq
      obtain ⟨ha, hb⟩ := hwf.2.1 kk (by omega)
      rw [gcm_merge Z S kk (by omega) ha hb]
      intro hnil
      have := sortNat_length (membersOf Z S (Z.getD kk (0, 0)).1 ++
        membersOf Z S (Z.getD kk (0, 0)).2)
      rw [hnil] at this
      simp only [List.length_nil, List.length_append] at this
      have h1 := ih (by omega) _ ha
      rw [← List.length_pos] at h1
      omega

theorem headD_mem (Z : List (ℕ × ℕ)) (S : ℕ) (hwf : WFTree S Z) (i : ℕ)
    (hi : i < S + Z.length) :
    (membersOf Z S i).headD 0 ∈ membersOf Z S i := by
  cases h : membersOf Z S i with
  | nil => exact absurd h (members_ne_nil Z S hwf Z.length (le_refl _) i hi)
  | cons y ys => simp

theorem stage_invariant (Z : List (ℕ × ℕ)) (S : ℕ) (hwf : WFTree S Z) :
    ∀ k, k ≤ Z.length →
      (∀ r₁ r₂, RootAt Z S k r₁ → RootAt Z S k r₂ → r₁ ≠ r₂ →
        ∀ x, x ∈ membersOf Z S r₁ → x ∉ membersOf Z S r₂) ∧
      (∀ i, i < S + k → ∃ r, RootAt Z S k r ∧
        ∀ x, x ∈ membersOf Z S i → x ∈ membersOf Z S r) := by
  intro k
  induction k with
  | zero =>
    intro _
    constructor
    · intro r₁ r₂ h₁ h₂ hne x hx₁ hx₂
      rw [gcm_leaf Z S r₁ (by simpa using h₁.1)] at hx₁
      rw [gcm_leaf Z S r₂ (by simpa using h₂.1)] at hx₂
      simp at hx₁ hx₂
      omega
    · intro i hi
      exact ⟨i, ⟨hi, by simp [childList]⟩, fun x hx => hx⟩
  | succ kk ih =>
    intro hk
    have hkk : kk < Z.length := by omega
    obtain ⟨ihD, ihA⟩ := ih (by omega)
    obtain ⟨haR, hbR, hab⟩ := child_root Z S hwf kk hkk
    obtain ⟨ha, hb⟩ := hwf.2.1 kk hkk
    have hmm : ∀ x, x ∈ membersOf Z S (S + kk) ↔
        x ∈ membersOf Z S (Z.getD kk (0, 0)).1 ∨
          x ∈ membersOf Z S (Z.getD kk (0, 0)).2 := by
      intro x
      rw [gcm_merge Z S kk hkk ha hb, mem_sortNat, List.mem_append]
    constructor
    · intro r₁ r₂ h₁ h₂ hne x hx₁ hx₂
      rw [root_succ_iff Z S hwf kk hkk] at h₁ h₂
      rcases h₁ with rfl | ⟨h₁R, h₁a, h₁b⟩
      · rcases h₂ with rfl | ⟨h₂R, h₂a, h₂b⟩
        · exact hne rfl
        · rcases (hmm x).mp hx₁ with h | h
          · exact ihD _ _ haR h₂R (fun he => h₂a he.symm) x h hx₂
          · exact ihD _ _ hbR h₂R (fun he => h₂b he.symm) x h hx₂
      · rcases h₂ with rfl | ⟨h₂R, h₂a, h₂b⟩
        · rcases (hmm x).mp hx₂ with h | h
          · exact ihD _ _ h₁R haR h₁a x hx₁ h
          · exact ihD _ _ h₁R hbR h₁b x hx₁ h
        · exact ihD _ _ h₁R h₂R hne x hx₁ hx₂
    · intro i hi
      by_cases hik : i < S + kk
      · obtain ⟨r, hrR, hsub⟩ := ihA i hik
        by_cases hra : r = (Z.getD kk (0, 0)).1
        · refine ⟨S + kk, ?_, fun x hx => (hmm x).mpr (Or.inl ?_)⟩
          · rw [root_succ_iff Z S hwf kk hkk]
            exact Or.inl rfl
          · rw [← hra]
            exact hsub x hx
        · by_cases hrb : r = (Z.getD kk (0, 0)).2
          · refine ⟨S + kk, ?_, fun x hx => (hmm x).mpr (Or.inr ?_)⟩
            · rw [root_succ_iff Z S hwf kk hkk]
              exact Or.inl rfl
            · rw [← hrb]
              exact hsub x hx
          · refine ⟨r, ?_, hsub⟩
            rw [root_succ_iff Z S hwf kk hkk]
            exact Or.inr ⟨hrR, hra, hrb⟩
      · have hieq : i = S + kk := by omega
        subst hieq
        refine ⟨S + kk, ?_, fun x hx => hx⟩
        rw [root_succ_iff Z S hwf kk hkk]
        exact Or.inl rfl

theorem laminar (Z : List (ℕ × ℕ)) (S : ℕ) (hwf : WFTree S Z) (i j : ℕ)
    (hij : i < j) (hj : j < S + Z.length) :
    (∀ x ∈ membersOf Z S i, x ∈ membersOf Z S j) ∨
    (∀ x ∈ membersOf Z S i, x ∉ membersOf Z S j) := by
  by_cases hjS : j < S
  · right
    intro x hx
    rw [gcm_leaf Z S i (by omega)] at hx
    rw [gcm_leaf Z S j hjS]
    simp at hx ⊢
    omega
  · have hjk : j = S + (j - S) := by omega
    have hk : j - S < Z.length := by omega
    obtain ⟨ihD, ihA⟩ := stage_invariant Z S hwf (j - S) (by omega)
    obtain ⟨haR, hbR, hab⟩ := child_root Z S hwf (j - S) hk
    obtain ⟨ha, hb⟩ := hwf.2.1 (j - S) hk
    have hmm : ∀ x, x ∈ membersOf Z S j ↔
        x ∈ membersOf Z S (Z.getD (j - S) (0, 0)).1 ∨
          x ∈ membersOf Z S (Z.getD (j - S) (0, 0)).2 := by
      intro x
      conv_lhs => rw [hjk]
      rw [gcm_merge Z S (j - S) hk ha hb, mem_sortNat, List.mem_append]
    obtain ⟨r, hrR, hsub⟩ := ihA i (by omega)
    by_cases hra : r = (Z.getD (j - S) (0, 0)).1
    · left
      intro x hx
      refine (hmm x).mpr (Or.inl ?_)
      rw [← hra]
      exact hsub x hx
    · by_cases hrb : r = (Z.getD (j - S) (0, 0)).2
      · left
        intro x hx
        refine (hmm x).mpr (Or.inr ?_)
        rw [← hrb]
        exact hsub x hx
      · right
        intro x hx hxj
        rcases (hmm x).mp hxj with h | h
        · exact ihD r _ hrR haR hra x (hsub x hx) h
        · exact ihD r _ hrR hbR hrb x (hsub x hx) h

theorem subset_of_overlap (Z : List (ℕ × ℕ)) (S : ℕ) (hwf : WFTree S Z)
    {i j x : ℕ} (hij : i < j) (hj : j < S + Z.length)
    (hxi : x ∈ membersOf Z S i) (hxj : x ∈ membersOf Z S j) :
    ∀ y ∈ membersOf Z S i, y ∈ membersOf Z S j := by
  rcases laminar Z S hwf i j hij hj with h | h
  · exact h
  · exact absurd hxj (h x hxi)

theorem membersOf_ne (Z : List (ℕ × ℕ)) (S : ℕ) (hwf : WFTree S Z) (i j : ℕ)
    (hij : i < j) (hj : j < S + Z.length) :
    membersOf Z S i ≠ membersOf Z S j := by
  intro heq
  by_cases hjS : j < S
  · rw [gcm_leaf Z S i (by omega), gcm_leaf Z S j hjS] at heq
    simp at heq
    omega
  · have hk : j - S < Z.length := by omega
    obtain ⟨ihD, ihA⟩ := stage_invariant Z S hwf (j - S) (by omega)
    obtain ⟨haR, hbR, hab⟩ := child_root Z S hwf (j - S) hk
    obtain ⟨ha, hb⟩ := hwf.2.1 (j - S) hk
    have hmerge : membersOf Z S j =
        sortNat (membersOf Z S (Z.getD (j - S) (0, 0)).1 ++
          membersOf Z S (Z.getD (j - S) (0, 0)).2) := by
      conv_lhs => rw [show j = S + (j - S) by omega]
      exact gcm_merge Z S (j - S) hk ha hb
    obtain ⟨r, hrR, hsub⟩ := ihA i (by omega)
    obtain ⟨ya, hya⟩ := List.exists_mem_of_ne_nil _
      (members_ne_nil Z S hwf (j - S) (by omega) _ ha)
    obtain ⟨yb, hyb⟩ := List.exists_mem_of_ne_nil _
      (members_ne_nil Z S hwf (j - S) (by omega) _ hb)
    have hyaj : ya ∈ membersOf Z S i := by
      rw [heq, hmerge, mem_sortNat, List.mem_append]
      exact Or.inl hya
    have hybj : yb ∈ membersOf Z S i := by
      rw [heq, hmerge, mem_sortNat, List.mem_append]
      exact Or.inr hyb
    have hreqa : r = (Z.getD (j - S) (0, 0)).1 := by
      by_contra hne
      exact ihD r _ hrR haR hne ya (hsub ya hyaj) hya
    have hreqb : r = (Z.getD (j - S) (0, 0)).2 := by
      by_contra hne
      exact ihD r _ hrR hbR hne yb (hsub yb hybj) hyb
    exact hab (hreqa ▸ hreqb)

theorem gcm_nodup (Z : List (ℕ × ℕ)) (S : ℕ) (hwf : WFTree S Z) :
    (get_cluster_members Z S).Nodup := by
  rw [List.Nodup, List.pairwise_iff_get]
  intro fi fj hij heq
  have hget : ∀ f : Fin (get_cluster_members Z S).length,
      (get_cluster_members Z S).get f = membersOf Z S f.1 := by
    intro f
    rw [membersOf, List.getD_eq_getElem?_getD, List.getElem?_eq_getElem f.2]
    rfl
  rw [hget fi, hget fj] at heq
  have hjlen : (fj : ℕ) < S + Z.length := by
    rw [← get_cluster_members_length Z S]
    exact fj.2
  exact membersOf_ne Z S hwf fi fj hij hjlen heq

theorem fpn_subset (Z : List (ℕ × ℕ)) (S : ℕ) (hwf : WFTree S Z) {n p : ℕ}
    (hn : n < S + Z.length)
    (hp : find_parent_node n (get_cluster_members Z S) = some p) :
    ∀ y ∈ membersOf Z S n, y ∈ membersOf Z S p := by
  obtain ⟨hnp, hplen, hhead⟩ := find_parent_node_some hp
  rw [get_cluster_members_length] at hplen
  exact subset_of_overlap Z S hwf hnp hplen (headD_mem Z S hwf n hn) hhead

theorem fpn_to_ancestor (Z : List (ℕ × ℕ)) (S : ℕ) (hwf : WFTree S Z)
    {n m : ℕ} (hnm : n < m) (hm : m < S + Z.length)
    (hsub : ∀ y ∈ membersOf Z S n, y ∈ membersOf Z S m) :
    ∃ p, find_parent_node n (get_cluster_members Z S) = some p ∧ p ≤ m := by
  have hhead := headD_mem Z S hwf n (by omega)
  have hheadm : (membersOf Z S n).headD 0 ∈ membersOf Z S m := hsub _ hhead
  obtain ⟨p, hp, hpm⟩ := @find_parent_node_found (get_cluster_members Z S) n m
    hnm (by rw [get_cluster_members_length]; omega) hheadm
  exact ⟨p, hp, hpm⟩


/-! ## Verdicts over a well-formed tree -/

theorem verdict_inherit_down (Z : List (ℕ × ℕ)) (S : ℕ) (hwf : WFTree S Z)
    (bv : List ℚ) (τ : ℚ) :
    ∀ d n m, m - n ≤ d → n < m → m < S + Z.length →
      (∀ y ∈ membersOf Z S n, y ∈ membersOf Z S m) →
      ruleVerdict (get_cluster_members Z S) bv τ m ≠ Verdict.fork →
      ruleVerdict (get_cluster_members Z S) bv τ n =
        ruleVerdict (get_cluster_members Z S) bv τ m := by
  intro d
  induction d with
  | zero => intro n m h1 h2 _ _ _; omega
  | succ dd ih =>
    intro n m hd hnm hm hsub hmf
    obtain ⟨p, hp, hpm⟩ := fpn_to_ancestor Z S hwf hnm hm hsub
    obtain ⟨hnp, hplen', -⟩ := find_parent_node_some hp
    by_cases hpm' : p = m
    · subst hpm'
      cases hv : ruleVerdict (get_cluster_members Z S) bv τ p with
      | fork => exact absurd hv hmf
      | node m' => exact ruleVerdict_inherit _ bv τ n p m' hp hv
    · have hpltm : p < m := by omega
      have hsubp : ∀ y ∈ membersOf Z S n, y ∈ membersOf Z S p :=
        fpn_subset Z S hwf (by omega) hp
      have hsubpm : ∀ y ∈ membersOf Z S p, y ∈ membersOf Z S m := by
        have hhead := headD_mem Z S hwf n (by omega)
        exact subset_of_overlap Z S hwf hpltm hm (hsubp _ hhead) (hsub _ hhead)
      have hpv := ih p m (by omega) hpltm hm hsubpm hmf
      cases hv : ruleVerdict (get_cluster_members Z S) bv τ p with
      | fork =>
        rw [hv] at hpv
        exact absurd hpv.symm hmf
      | node m' =>
        rw [hv] at hpv
        rw [ruleVerdict_inherit _ bv τ n p m' hp hv, hpv]

theorem verdict_node_target (Z : List (ℕ × ℕ)) (S : ℕ) (hwf : WFTree S Z)
    (bv : List ℚ) (τ : ℚ) :
    ∀ d n, S + Z.length - n ≤ d → n < S + Z.length → ∀ m,
      ruleVerdict (get_cluster_members Z S) bv τ n = Verdict.node m →
      m < S + Z.length ∧
        ruleVerdict (get_cluster_members Z S) bv τ m = Verdict.node m ∧
        ∀ y ∈ membersOf Z S n, y ∈ membersOf Z S m := by
  intro d
  induction d with
  | zero => intro n h1 h2 _ _; omega
  | succ dd ih =>
    intro n hd hn m hv
    cases hp : find_parent_node n (get_cluster_members Z S) with
    | none =>
      rw [ruleVerdict_root _ bv τ n hp] at hv
      by_cases hτn : τ ≤ bv.getD n 0
      · rw [if_pos hτn] at hv
        cases hv
      · rw [if_neg hτn] at hv
        cases hv
        exact ⟨hn, by rw [ruleVerdict_root _ bv τ n hp, if_neg hτn],
          fun y hy => hy⟩
    | some p =>
      obtain ⟨hnp, hplen', -⟩ := find_parent_node_some hp
      have hplen : p < S + Z.length := by
        rwa [get_cluster_members_length] at hplen'
      cases hvp : ruleVerdict (get_cluster_members Z S) bv τ p with
      | fork =>
        rw [ruleVerdict_fork_parent _ bv τ n p hp hvp] at hv
        by_cases hτn : τ ≤ bv.getD n 0
        · rw [if_pos hτn] at hv
          cases hv
        · rw [if_neg hτn] at hv
          cases hv
          exact ⟨hn, by rw [ruleVerdict_fork_parent _ bv τ n p hp hvp, if_neg hτn],
            fun y hy => hy⟩
      | node m' =>
        have hvn := ruleVerdict_inherit _ bv τ n p m' hp hvp
        rw [hvn] at hv
        injection hv with he
        subst he
        obtain ⟨h1, h2, h3⟩ := ih p (by omega) hplen m' hvp
        exact ⟨h1, h2, fun y hy => h3 y (fpn_subset Z S hwf (by omega) hp y hy)⟩

theorem ruleClusters_mem (tc : List (List ℕ)) (bv : List ℚ) (τ : ℚ)
    (c : List ℕ) :
    c ∈ ruleClusters tc bv τ ↔
      ∃ m, (∃ n, n < bv.length ∧ ruleVerdict tc bv τ n = Verdict.node m) ∧
        c = tc.getD m [] := by
  rw [ruleClusters, List.mem_filterMap]
  constructor
  · rintro ⟨v, hv, hout⟩
    rw [List.mem_dedup, List.mem_map] at hv
    obtain ⟨n, hn, rfl⟩ := hv
    rw [List.mem_reverse, List.mem_range] at hn
    cases hvv : ruleVerdict tc bv τ n with
    | fork =>
      rw [hvv] at hout
      exact absurd hout (by simp [verdictOut])
    | node m =>
      rw [hvv] at hout
      refine ⟨m, ⟨n, hn, hvv⟩, ?_⟩
      have : some (tc.getD m []) = some c := hout
      exact (Option.some.inj this).symm
  · rintro ⟨m, ⟨n, hn, hvn⟩, rfl⟩
    refine ⟨Verdict.node m, ?_, rfl⟩
    rw [List.mem_dedup, List.mem_map]
    refine ⟨n, ?_, hvn⟩
    rw [List.mem_reverse, List.mem_range]
    exact hn

theorem ruleClusters_partition (Z : List (ℕ × ℕ)) (S : ℕ) (hwf : WFTree S Z)
    (bv : List ℚ) (τ : ℚ)
    (hlen : (get_cluster_members Z S).length = bv.length)
    (hleaf0 : ∀ s, s < S → bv.getD s 0 = 0) (hτ : 0 < τ) :
    (ruleClusters (get_cluster_members Z S) bv τ).Pairwise
      (fun c₁ c₂ => ∀ x ∈ c₁, x ∉ c₂) ∧
    ∀ x : ℕ, (∃ c ∈ ruleClusters (get_cluster_members Z S) bv τ, x ∈ c) ↔
      x < S := by
  have htclen : (get_cluster_members Z S).length = S + Z.length :=
    get_cluster_members_length Z S
  have hbvlen : bv.length = S + Z.length := by omega
  have aux : ∀ mlo mhi, mlo < mhi → mhi < S + Z.length →
      ruleVerdict (get_cluster_members Z S) bv τ mlo = Verdict.node mlo →
      ruleVerdict (get_cluster_members Z S) bv τ mhi = Verdict.node mhi →
      ∀ x, x ∈ membersOf Z S mlo → x ∉ membersOf Z S mhi := by
    intro mlo mhi hlt hhi hVlo hVhi x hxlo hxhi
    have hsub := subset_of_overlap Z S hwf hlt hhi hxlo hxhi
    have hdown := verdict_inherit_down Z S hwf bv τ (S + Z.length) mlo mhi
      (by omega) hlt hhi hsub (by rw [hVhi]; simp)
    rw [hVlo, hVhi] at hdown
    cases hdown
    omega
  have key : ∀ m₁ m₂, m₁ < S + Z.length → m₂ < S + Z.length → m₁ ≠ m₂ →
      ruleVerdict (get_cluster_members Z S) bv τ m₁ = Verdict.node m₁ →
      ruleVerdict (get_cluster_members Z S) bv τ m₂ = Verdict.node m₂ →
      ∀ x, x ∈ membersOf Z S m₁ → x ∉ membersOf Z S m₂ := by
    intro m₁ m₂ hm₁ hm₂ hne hV₁ hV₂ x hx1 hx2
    rcases Nat.lt_or_ge m₁ m₂ with h | h
    · exact aux m₁ m₂ h hm₂ hV₁ hV₂ x hx1 hx2
    · exact aux m₂ m₁ (by omega) hm₁ hV₂ hV₁ x hx2 hx1
  constructor
  · rw [ruleClusters, List.pairwise_filterMap]
    refine List.Pairwise.imp_of_mem ?_ (List.nodup_dedup _)
    intro v₁ v₂ hv₁ hv₂ hne c₁ hc₁ c₂ hc₂ x hxc₁
    rw [List.mem_dedup, List.mem_map] at hv₁ hv₂
    obtain ⟨n₁, hn₁, rfl⟩ := hv₁
    obtain ⟨n₂, hn₂, rfl⟩ := hv₂
    rw [List.mem_reverse, List.mem_range] at hn₁ hn₂
    cases hvv₁ : ruleVerdict (get_cluster_members Z S) bv τ n₁ with
    | fork =>
      rw [hvv₁] at hc₁
      exact absurd hc₁ (by simp [verdictOut])
    | node m₁ =>
      cases hvv₂ : ruleVerdict (get_cluster_members Z S) bv τ n₂ with
      | fork =>
        rw [hvv₂] at hc₂
        exact absurd hc₂ (by simp [verdictOut])
      | node m₂ =>
        rw [hvv₁] at hc₁
        rw [hvv₂] at hc₂
        have hc₁' : c₁ = membersOf Z S m₁ := (Option.some.inj hc₁).symm
        have hc₂' : c₂ = membersOf Z S m₂ := (Option.some.inj hc₂).symm
        obtain ⟨hm₁, hVm₁, -⟩ := verdict_node_target Z S hwf bv τ
          (S + Z.length) n₁ (by omega) (by omega) m₁ hvv₁
        obtain ⟨hm₂, hVm₂, -⟩ := verdict_node_target Z S hwf bv τ
          (S + Z.length) n₂ (by omega) (by omega) m₂ hvv₂
        have hmne : m₁ ≠ m₂ := by
          intro he
          rw [hvv₁, hvv₂] at hne
          exact hne (by rw [he])
        subst hc₁'
        subst hc₂'
        exact key m₁ m₂ hm₁ hm₂ hmne hVm₁ hVm₂ x hxc₁
  · intro x
    constructor
    · rintro ⟨c, hc, hxc⟩
      obtain ⟨m, ⟨n, hn, hvn⟩, rfl⟩ := (ruleClusters_mem _ bv τ c).mp hc
      obtain ⟨hmlt, -, -⟩ := verdict_node_target Z S hwf bv τ (S + Z.length) n
        (by omega) (by omega) m hvn
      exact members_lt_S Z S hwf Z.length (le_refl _) m hmlt x hxc
    · intro hxS
      have hx0 : bv.getD x 0 = 0 := hleaf0 x hxS
      have hnotle : ¬ τ ≤ bv.getD x 0 := by
        rw [hx0]
        exact not_le.mpr hτ
      have hleafv : ∃ m, ruleVerdict (get_cluster_members Z S) bv τ x =
          Verdict.node m := by
        cases hp : find_parent_node x (get_cluster_members Z S) with
        | none =>
          rw [ruleVerdict_root _ bv τ x hp, if_neg hnotle]
          exact ⟨x, rfl⟩
        | some p =>
          cases hvp : ruleVerdict (get_cluster_members Z S) bv τ p with
          | fork =>
            rw [ruleVerdict_fork_parent _ bv τ x p hp hvp, if_neg hnotle]
            exact ⟨x, rfl⟩
          | node m => exact ⟨m, ruleVerdict_inherit _ bv τ x p m hp hvp⟩
      obtain ⟨m, hvm⟩ := hleafv
      obtain ⟨hmlt, hmself, hsub⟩ := verdict_node_target Z S hwf bv τ
        (S + Z.length) x (by omega) (by omega) m hvm
      refine ⟨membersOf Z S m,
        (ruleClusters_mem _ bv τ _).mpr ⟨m, ⟨m, by omega, hmself⟩, rfl⟩, ?_⟩
      apply hsub
      rw [gcm_leaf Z S x hxS]
      simp


/-! ## SupportCalculator counting -/

theorem countStep_length (tc : List (List ℕ)) (counts : List ℚ) (c : List ℕ) :
    (countStep tc counts c).length = counts.length := by
  rw [countStep]
  split
  · rw [bump, List.length_set]
  · rfl

theorem boot_fold_length (tc : List (List ℕ)) :
    ∀ (b : List (List ℕ)) (counts : List ℚ),
      (b.foldl (countStep tc) counts).length = counts.length := by
  intro b
  induction b with
  | nil => intro counts; rfl
  | cons c rest ih =>
    intro counts
    rw [List.foldl_cons, ih, countStep_length]

theorem boots_fold_length (tc : List (List ℕ)) :
    ∀ (boots : List (List (List ℕ))) (counts : List ℚ),
      (boots.foldl (fun cs b => b.foldl (countStep tc) cs) counts).length =
        counts.length := by
  intro boots
  induction boots with
  | nil => intro counts; rfl
  | cons b rest ih =>
    intro counts
    rw [List.foldl_cons, ih, boot_fold_length]

theorem cbv_length (tc : List (List ℕ)) (boots : List (List (List ℕ))) :
    (calculate_bootstrap_values tc boots).length = tc.length := by
  rw [calculate_bootstrap_values, List.length_map, boots_fold_length,
    List.length_replicate]

theorem bump_getD_ne (l : List ℚ) (i j : ℕ) (hij : i ≠ j) :
    (bump l i).getD j 0 = l.getD j 0 := by
  rw [bump, List.getD_eq_getElem?_getD, List.getElem?_set_ne hij,
    ← List.getD_eq_getElem?_getD]

theorem bump_getD_self (l : List ℚ) (i : ℕ) (hi : i < l.length) :
    (bump l i).getD i 0 = l.getD i 0 + 1 := by
  rw [bump, List.getD_eq_getElem?_getD, List.getElem?_set_self hi,
    Option.getD_some, List.getD_eq_getElem?_getD, List.getElem?_eq_getElem hi,
    Option.getD_some]

theorem map_div_getD (l : List ℚ) (q : ℚ) (s : ℕ) :
    (l.map fun c => c / q).getD s 0 = l.getD s 0 / q := by
  rw [List.getD_eq_getElem?_getD, List.getElem?_map,
    List.getD_eq_getElem?_getD]
  cases h : l[s]? with
  | none => simp
  | some x => simp

theorem replicate_getD_zero (n s : ℕ) :
    (List.replicate n (0 : ℚ)).getD s 0 = 0 := by
  rw [List.getD_eq_getElem?_getD, List.getElem?_replicate]
  split <;> simp

theorem idxOfL_getD (c : List ℕ) :
    ∀ tc : List (List ℕ), c ∈ tc → tc.getD (idxOfL c tc) [] = c := by
  intro tc
  induction tc with
  | nil => intro h; simp at h
  | cons d rest ih =>
    intro hc
    rw [idxOfL]
    by_cases hdc : d = c
    · rw [if_pos hdc, List.getD_cons_zero]
      exact hdc
    · rw [if_neg hdc, List.getD_cons_succ]
      refine ih ?_
      rcases List.mem_cons.mp hc with h | h
      · exact absurd h.symm hdc
      · exact h

theorem idxOfL_nodup_getD :
    ∀ tc : List (List ℕ), tc.Nodup → ∀ i, i < tc.length →
      idxOfL (tc.getD i []) tc = i := by
  intro tc
  induction tc with
  | nil => intro _ i hi; simp at hi
  | cons d rest ih =>
    intro hnd i hi
    rw [List.nodup_cons] at hnd
    cases i with
    | zero => rw [List.getD_cons_zero, idxOfL, if_pos rfl]
    | succ ii =>
      have hii : ii < rest.length := by simpa using hi
      rw [List.getD_cons_succ, idxOfL]
      have hne : d ≠ rest.getD ii [] := by
        intro he
        apply hnd.1
        rw [he, List.getD_eq_getElem?_getD, List.getElem?_eq_getElem hii,
          Option.getD_some]
        exact List.getElem_mem hii
      rw [if_neg hne, ih hnd.2 ii hii]

theorem getD_mem (tc : List (List ℕ)) (i : ℕ) (hi : i < tc.length) :
    tc.getD i [] ∈ tc := by
  rw [List.getD_eq_getElem?_getD, List.getElem?_eq_getElem hi, Option.getD_some]
  exact List.getElem_mem hi

theorem countStep_getD_ne (tc : List (List ℕ)) (i : ℕ)
    (counts : List ℚ) (c : List ℕ) (hne : c ≠ tc.getD i []) :
    (countStep tc counts c).getD i 0 = counts.getD i 0 := by
  rw [countStep]
  split
  · next h =>
    refine bump_getD_ne _ _ _ ?_
    intro he
    exact hne ((idxOfL_getD c tc h.1).symm.trans (by rw [he]))
  · rfl

theorem countStep_getD_self (tc : List (List ℕ)) (hnd : tc.Nodup) (i : ℕ)
    (hi : i < tc.length) (hlen1 : 1 < (tc.getD i []).length) (counts : List ℚ)
    (hclen : counts.length = tc.length) :
    (countStep tc counts (tc.getD i [])).getD i 0 = counts.getD i 0 + 1 := by
  rw [countStep, if_pos ⟨getD_mem tc i hi, hlen1⟩,
    idxOfL_nodup_getD tc hnd i hi]
  exact bump_getD_self counts i (by omega)

theorem countStep_getD_singleton (tc : List (List ℕ)) (s : ℕ)
    (hs : (tc.getD s []).length ≤ 1) (counts : List ℚ) (c : List ℕ) :
    (countStep tc counts c).getD s 0 = counts.getD s 0 := by
  rw [countStep]
  split
  · next h =>
    obtain ⟨hc, hlen⟩ := h
    refine bump_getD_ne _ _ _ ?_
    intro he
    have hgd := idxOfL_getD c tc hc
    rw [he] at hgd
    rw [hgd] at hs
    omega
  · rfl

theorem boot_fold_getD_singleton (tc : List (List ℕ)) (s : ℕ)
    (hs : (tc.getD s []).length ≤ 1) :
    ∀ (b : List (List ℕ)) (counts : List ℚ),
      (b.foldl (countStep tc) counts).getD s 0 = counts.getD s 0 := by
  intro b
  induction b with
  | nil => intro counts; rfl
  | cons c rest ih =>
    intro counts
    rw [List.foldl_cons, ih, countStep_getD_singleton tc s hs counts c]

theorem boots_fold_getD_singleton (tc : List (List ℕ)) (s : ℕ)
    (hs : (tc.getD s []).length ≤ 1) :
    ∀ (boots : List (List (List ℕ))) (counts : List ℚ),
      (boots.foldl (fun cs b => b.foldl (countStep tc) cs) counts).getD s 0 =
        counts.getD s 0 := by
  intro boots
  induction boots with
  | nil => intro counts; rfl
  | cons b rest ih =>
    intro counts
    rw [List.foldl_cons, ih, boot_fold_getD_singleton tc s hs]

theorem cbv_singleton_zero (tc : List (List ℕ)) (boots : List (List (List ℕ)))
    (s : ℕ) (hs : (tc.getD s []).length ≤ 1) :
    (calculate_bootstrap_values tc boots).getD s 0 = 0 := by
  rw [calculate_bootstrap_values, map_div_getD,
    boots_fold_getD_singleton tc s hs, replicate_getD_zero, zero_div]

theorem boot_fold_getD_notmem (tc : List (List ℕ)) (i : ℕ) :
    ∀ (b : List (List ℕ)) (counts : List ℚ), tc.getD i [] ∉ b →
      (b.foldl (countStep tc) counts).getD i 0 = counts.getD i 0 := by
  intro b
  induction b with
  | nil => intro counts _; rfl
  | cons c rest ih =>
    intro counts hnm
    rw [List.foldl_cons, ih _ fun h => hnm (List.mem_cons.mpr (Or.inr h)),
      countStep_getD_ne tc i counts c
        fun he => hnm (by rw [← he]; exact List.mem_cons_self c rest)]

theorem boot_fold_getD_count (tc : List (List ℕ)) (hnd : tc.Nodup) (i : ℕ)
    (hi : i < tc.length) (hlen1 : 1 < (tc.getD i []).length) :
    ∀ (b : List (List ℕ)) (counts : List ℚ), b.Nodup →
      counts.length = tc.length →
      (b.foldl (countStep tc) counts).getD i 0 =
        counts.getD i 0 + (if tc.getD i [] ∈ b then 1 else 0) := by
  intro b
  induction b with
  | nil => intro counts _ _; simp
  | cons c rest ih =>
    intro counts hbnd hclen
    rw [List.nodup_cons] at hbnd
    rw [List.foldl_cons]
    by_cases hc : c = tc.getD i []
    · subst hc
      rw [boot_fold_getD_notmem tc i rest _ hbnd.1,
        countStep_getD_self tc hnd i hi hlen1 counts hclen,
        if_pos (List.mem_cons_self _ _)]
    · rw [ih _ hbnd.2 (by rw [countStep_length]; exact hclen),
        countStep_getD_ne tc i counts c hc]
      have hiff : (tc.getD i [] ∈ c :: rest) ↔ (tc.getD i [] ∈ rest) := by
        rw [List.mem_cons]
        constructor
        · rintro (h | h)
          · exact absurd h.symm hc
          · exact h
        · exact Or.inr
      rw [if_congr hiff rfl rfl]

theorem boots_fold_getD_count (tc : List (List ℕ)) (hnd : tc.Nodup) (i : ℕ)
    (hi : i < tc.length) (hlen1 : 1 < (tc.getD i []).length) :
    ∀ (boots : List (List (List ℕ))) (counts : List ℚ),
      (∀ b ∈ boots, b.Nodup) → counts.length = tc.length →
      (boots.foldl (fun cs b => b.foldl (countStep tc) cs) counts).getD i 0 =
        counts.getD i 0 +
          ((boots.countP fun b => decide (tc.getD i [] ∈ b) : ℕ) : ℚ) := by
  intro boots
  induction boots with
  | nil => intro counts _ _; simp
  | cons b rest ih =>
    intro counts hbs hclen
    rw [List.foldl_cons,
      ih _ (fun b' hb' => hbs b' (List.mem_cons.mpr (Or.inr hb')))
        (by rw [boot_fold_length]; exact hclen),
      boot_fold_getD_count tc hnd i hi hlen1 b counts
        (hbs b (List.mem_cons_self _ _)) hclen,
      List.countP_cons]
    simp only [decide_eq_true_eq]
    by_cases hmem : tc.getD i [] ∈ b
    · rw [if_pos hmem, if_pos hmem]
      push_cast
      ring
    · rw [if_neg hmem, if_neg hmem]
      push_cast
      ring

theorem cbv_formula (tc : List (List ℕ)) (hnd : tc.Nodup)
    (boots : List (List (List ℕ))) (hbs : ∀ b ∈ boots, b.Nodup) (i : ℕ)
    (hi : i < tc.length) (hlen1 : 1 < (tc.getD i []).length) :
    (calculate_bootstrap_values tc boots).getD i 0 =
      ((boots.countP fun b => decide (tc.getD i [] ∈ b) : ℕ) : ℚ) /
        (boots.length : ℚ) := by
  rw [calculate_bootstrap_values, map_div_getD,
    boots_fold_getD_count tc hnd i hi hlen1 boots _ hbs
      (List.length_replicate _ _),
    replicate_getD_zero, zero_add]

theorem cbv_bounds (Z : List (ℕ × ℕ)) (S : ℕ) (boots : List (List (List ℕ)))
    (hwf : WFTree S Z) (hbs : ∀ b ∈ boots, b.Nodup) :
    ∀ q ∈ calculate_bootstrap_values (get_cluster_members Z S) boots,
      0 ≤ q ∧ q ≤ 1 := by
  intro q hq
  rw [List.mem_iff_getElem] at hq
  obtain ⟨j, hj, hqe⟩ := hq
  have hjlen : j < (get_cluster_members Z S).length := by
    rw [← cbv_length (get_cluster_members Z S) boots]
    exact hj
  have hqD : q =
      (calculate_bootstrap_values (get_cluster_members Z S) boots).getD j 0 := by
    rw [List.getD_eq_getElem?_getD, List.getElem?_eq_getElem hj,
      Option.getD_some, hqe]
  by_cases hlen1 : 1 < ((get_cluster_members Z S).getD j []).length
  · rw [hqD, cbv_formula _ (gcm_nodup Z S hwf) boots hbs j hjlen hlen1]
    constructor
    · positivity
    · by_cases hN : boots.length = 0
      · simp [hN]
      · rw [div_le_one (by exact_mod_cast Nat.pos_of_ne_zero hN)]
        exact_mod_cast List.countP_le_length _
  · rw [hqD, cbv_singleton_zero _ boots j (by omega)]
    norm_num

/-- C2 counterexample, two failure modes left open by the claim's "every
threshold" and "every SupportVector".  (a) Threshold τ = 0: every node's
support meets the threshold, every verdict is `'fork'`, and the collapse
output is EMPTY — sample 0 (and every other sample) is in no returned
cluster, so the output is not a partition of the sample set.  (b) Zero
bootstrap replicates (`--n_bootstrap 0`): `counts /= 0` makes every support
NaN, NaN fails both `>=` and `<` against any threshold, the fork-parented
root receives no verdict, and its child's parent lookup raises ValueError —
no output at all. -/
theorem collapse_partition_cex :
    WFTree 2 [(0, 1)] ∧
    collapse_clustersF (get_cluster_members [(0, 1)] 2)
        (calculate_bootstrap_valuesF (get_cluster_members [(0, 1)] 2)
          [[[0], [1], [0, 1]]]) 0 = Except.ok [] ∧
    (¬ ∃ c ∈ ([] : List (List ℕ)), (0 : ℕ) ∈ c) ∧
    collapse_clustersF (get_cluster_members [(0, 1)] 2)
        (calculate_bootstrap_valuesF (get_cluster_members [(0, 1)] 2) [])
        (99 / 100) = Except.error PyErr.parentNotFound := by
  refine ⟨by decide, ?_, by simp, rfl⟩
  norm_num [collapse_clustersF, buildVerdicts, collapseStepF, is_parent_a_fork,
    cmpGE, cmpLT, find_parent_node, fpnFrom, dlookup, verdictOut, List.range,
    List.range.loop, Bind.bind, Except.bind, Functor.map, Except.map,
    Pure.pure, Except.pure, List.dedup_cons_of_mem, List.dedup_cons_of_not_mem,
    List.filterMap, get_cluster_members, gcmStep, sortNat, List.insertionSort,
    List.orderedInsert, calculate_bootstrap_valuesF, countStep, bump, idxOfL,
    List.replicate]

/-- C2 amended: for every SupportVector produced by the SupportCalculator from
a well-formed binary merge tree over `S` samples and AT LEAST ONE bootstrap
replicate, and every STRICTLY POSITIVE threshold τ, the collapse output is a
partition of `{0, …, S-1}`: member lists pairwise disjoint, and each sample
index in exactly one returned cluster.  The two exclusions are exactly the
counterexample's modes: at τ = 0 the output is empty, and with zero
replicates every support is NaN and the collapse raises ValueError. -/
theorem collapse_output_partition (Z : List (ℕ × ℕ)) (S : ℕ)
    (boots : List (List (List ℕ))) (τ : ℚ) (hwf : WFTree S Z) (hτ : 0 < τ)
    (hboots : boots ≠ []) :
    ∃ out, collapse_clustersF (get_cluster_members Z S)
        (calculate_bootstrap_valuesF (get_cluster_members Z S) boots) τ =
        Except.ok out ∧
      out.Pairwise (fun c₁ c₂ => ∀ x ∈ c₁, x ∉ c₂) ∧
      ∀ x : ℕ, (∃ c ∈ out, x ∈ c) ↔ x < S := by
  rw [calculate_bootstrap_valuesF_eq _ boots hboots, collapse_clustersF_some]
  have hlen : (get_cluster_members Z S).length =
      (calculate_bootstrap_values (get_cluster_members Z S) boots).length :=
    (cbv_length _ boots).symm
  have hleaf0 : ∀ s, s < S →
      (calculate_bootstrap_values (get_cluster_members Z S) boots).getD s 0 =
        0 := by
    intro s hs
    refine cbv_singleton_zero _ boots s ?_
    rw [show (get_cluster_members Z S).getD s [] = membersOf Z S s from rfl,
      gcm_leaf Z S s hs]
    norm_num
  obtain ⟨h1, h2⟩ := ruleClusters_partition Z S hwf _ τ hlen hleaf0 hτ
  exact ⟨_, collapse_clusters_ok _ _ τ hlen, h1, h2⟩

/-- C2 amended, witnessed on the two-sample tree with one replicate. -/
theorem collapse_output_partition_witness :
    WFTree 2 [(0, 1)] ∧ (0 : ℚ) < 1 ∧
    ([[[0], [1], [0, 1]]] : List (List (List ℕ))) ≠ [] ∧
    ∃ out, collapse_clustersF (get_cluster_members [(0, 1)] 2)
        (calculate_bootstrap_valuesF (get_cluster_members [(0, 1)] 2)
          [[[0], [1], [0, 1]]]) 1 = Except.ok out ∧
      out.Pairwise (fun c₁ c₂ => ∀ x ∈ c₁, x ∉ c₂) ∧
      ∀ x : ℕ, (∃ c ∈ out, x ∈ c) ↔ x < 2 :=
  ⟨by decide, by norm_num, by simp,
    collapse_output_partition [(0, 1)] 2 [[[0], [1], [0, 1]]] 1 (by decide)
      (by norm_num) (by simp)⟩

/-- C5 counterexample: the claim cites vcfToMatrix_2.py's
`calculate_bootstrap_values` (lines 203–210), which has NO `len(cluster) > 1`
guard.  On the two-sample tree with one replicate equal to the canonical
collection, every node — including the singleton leaves `[0]` and `[1]` —
scores N/N = 1.0 full support, contradicting "its bootstrap support value is
the fraction ... (clusters of one sample are skipped)". -/
theorem singleton_full_support_cex :
    (get_cluster_members [(0, 1)] 2).getD 0 [] = [0] ∧
    V2.calculate_bootstrap_values (get_cluster_members [(0, 1)] 2)
        [[[0], [1], [0, 1]]] = [1, 1, 1] := by
  constructor
  · decide
  · norm_num [V2.calculate_bootstrap_values, V2.countStep, bump, idxOfL,
      get_cluster_members, gcmStep, sortNat, List.insertionSort,
      List.orderedInsert, List.replicate]

/-- C5 amended: the guarded claim holds of vcfToMatrix.py's
`calculate_bootstrap_values` (the version with the `len(cluster) > 1` guard),
provided there is at least one replicate (with zero replicates every support
is NaN).  For every canonical node of a well-formed tree whose member-set has
more than one element, its support is (number of replicates whose collection
contains an equal member-set) / N — matching by list/set equality, not node
id; singleton leaves are excluded and always score 0 (hence never full
support); and every support value is an actual number in [0, 1].  Replicate
collections are assumed duplicate-free, as the collections built by
`get_cluster_members` from any merge tree are.  vcfToMatrix_2.py's guard-less
version gives singleton leaves full support, see the counterexample. -/
theorem support_values (Z : List (ℕ × ℕ)) (S : ℕ)
    (boots : List (List (List ℕ))) (hwf : WFTree S Z)
    (hbs : ∀ b ∈ boots, b.Nodup) (hboots : boots ≠ []) :
    (∀ i, i < (get_cluster_members Z S).length →
      1 < ((get_cluster_members Z S).getD i []).length →
      (calculate_bootstrap_valuesF (get_cluster_members Z S) boots).getD i
          none =
        some (((boots.countP fun b =>
          decide ((get_cluster_members Z S).getD i [] ∈ b) : ℕ) : ℚ) /
          (boots.length : ℚ))) ∧
    (∀ i, i < (get_cluster_members Z S).length →
      ((get_cluster_members Z S).getD i []).length ≤ 1 →
      (calculate_bootstrap_valuesF (get_cluster_members Z S) boots).getD i
          none = some 0) ∧
    ∀ o ∈ calculate_bootstrap_valuesF (get_cluster_members Z S) boots,
      ∃ q, o = some q ∧ 0 ≤ q ∧ q ≤ 1 := by
  rw [calculate_bootstrap_valuesF_eq _ boots hboots]
  have hlen : (calculate_bootstrap_values (get_cluster_members Z S)
      boots).length = (get_cluster_members Z S).length := cbv_length _ boots
  refine ⟨fun i hi h1 => ?_, fun i hi h1 => ?_, fun o ho => ?_⟩
  · rw [map_some_getD _ i (by rw [hlen]; exact hi),
      cbv_formula _ (gcm_nodup Z S hwf) boots hbs i hi h1]
  · rw [map_some_getD _ i (by rw [hlen]; exact hi),
      cbv_singleton_zero _ boots i h1]
  · obtain ⟨q, hq, rfl⟩ := List.mem_map.mp ho
    exact ⟨q, rfl, cbv_bounds Z S boots hwf hbs q hq⟩

/-- C5 amended, witnessed on the two-sample tree with one replicate. -/
theorem support_values_witness :
    WFTree 2 [(0, 1)] ∧ (∀ b ∈ [[[0], [1], [0, 1]]], List.Nodup b) ∧
    ([[[0], [1], [0, 1]]] : List (List (List ℕ))) ≠ [] ∧
    ((∀ i, i < (get_cluster_members [(0, 1)] 2).length →
      1 < ((get_cluster_members [(0, 1)] 2).getD i []).length →
      (calculate_bootstrap_valuesF (get_cluster_members [(0, 1)] 2)
          [[[0], [1], [0, 1]]]).getD i none =
        some ((([[[0], [1], [0, 1]]].countP fun b =>
          decide ((get_cluster_members [(0, 1)] 2).getD i [] ∈ b) : ℕ) : ℚ) /
          (([[[0], [1], [0, 1]]] : List (List (List ℕ))).length : ℚ))) ∧
    (∀ i, i < (get_cluster_members [(0, 1)] 2).length →
      ((get_cluster_members [(0, 1)] 2).getD i []).length ≤ 1 →
      (calculate_bootstrap_valuesF (get_cluster_members [(0, 1)] 2)
          [[[0], [1], [0, 1]]]).getD i none = some 0) ∧
    ∀ o ∈ calculate_bootstrap_valuesF (get_cluster_members [(0, 1)] 2)
        [[[0], [1], [0, 1]]], ∃ q, o = some q ∧ 0 ≤ q ∧ q ≤ 1) :=
  ⟨by decide, by decide, by simp,
    support_values [(0, 1)] 2 [[[0], [1], [0, 1]]] (by decide) (by decide)
      (by simp)⟩

/-- C8: starting from singleton leaves, every merge node's member list is the
sorted disjoint union of its two children's member lists, and its length is
the sum of the children's lengths. -/
theorem membership_disjoint_union (Z : List (ℕ × ℕ)) (S : ℕ)
    (hwf : WFTree S Z) :
    (∀ s, s < S → membersOf Z S s = [s]) ∧
    ∀ k, k < Z.length →
      membersOf Z S (S + k) =
        sortNat (membersOf Z S (Z.getD k (0, 0)).1 ++
          membersOf Z S (Z.getD k (0, 0)).2) ∧
      List.Sorted (· ≤ ·) (membersOf Z S (S + k)) ∧
      (∀ x ∈ membersOf Z S (Z.getD k (0, 0)).1,
        x ∉ membersOf Z S (Z.getD k (0, 0)).2) ∧
      (membersOf Z S (S + k)).length =
        (membersOf Z S (Z.getD k (0, 0)).1).length +
          (membersOf Z S (Z.getD k (0, 0)).2).length := by
  refine ⟨fun s hs => gcm_leaf Z S s hs, fun k hk => ?_⟩
  obtain ⟨ha, hb⟩ := hwf.2.1 k hk
  have hmg := gcm_merge Z S k hk ha hb
  obtain ⟨haR, hbR, hab⟩ := child_root Z S hwf k hk
  obtain ⟨ihD, -⟩ := stage_invariant Z S hwf k (by omega)
  refine ⟨hmg, by rw [hmg]; exact sortNat_sorted _, ?_, ?_⟩
  · exact ihD _ _ haR hbR hab
  · rw [hmg, sortNat_length, List.length_append]

/-- C8 witnessed on the two-sample tree. -/
theorem membership_disjoint_union_witness :
    WFTree 2 [(0, 1)] ∧
    ((∀ s, s < 2 → membersOf [(0, 1)] 2 s = [s]) ∧
    ∀ k, k < ([(0, 1)] : List (ℕ × ℕ)).length →
      membersOf [(0, 1)] 2 (2 + k) =
        sortNat (membersOf [(0, 1)] 2 (([(0, 1)] : List (ℕ × ℕ)).getD k (0, 0)).1 ++
          membersOf [(0, 1)] 2 (([(0, 1)] : List (ℕ × ℕ)).getD k (0, 0)).2) ∧
      List.Sorted (· ≤ ·) (membersOf [(0, 1)] 2 (2 + k)) ∧
      (∀ x ∈ membersOf [(0, 1)] 2 (([(0, 1)] : List (ℕ × ℕ)).getD k (0, 0)).1,
        x ∉ membersOf [(0, 1)] 2 (([(0, 1)] : List (ℕ × ℕ)).getD k (0, 0)).2) ∧
      (membersOf [(0, 1)] 2 (2 + k)).length =
        (membersOf [(0, 1)] 2 (([(0, 1)] : List (ℕ × ℕ)).getD k (0, 0)).1).length +
          (membersOf [(0, 1)] 2 (([(0, 1)] : List (ℕ × ℕ)).getD k (0, 0)).2).length) :=
  ⟨by decide, membership_disjoint_union [(0, 1)] 2 (by decide)⟩


/-! ## BootstrapEngine determinism -/

theorem runTask_state_free (ch : ℕ → ℕ → List ℕ × ℕ)
    (lf : List (List (Option ℚ)) → List (ℕ × ℕ)) (d : Tensor) (st i : ℕ) :
    (runTask ch lf d st i).1 = taskResult ch lf d i := rfl

theorem runWorker_eq_map (ch : ℕ → ℕ → List ℕ × ℕ)
    (lf : List (List (Option ℚ)) → List (ℕ × ℕ)) (d : Tensor) :
    ∀ (tasks : List ℕ) (st : ℕ),
      runWorker ch lf d st tasks =
        tasks.map fun i => (i, taskResult ch lf d i) := by
  intro tasks
  induction tasks with
  | nil => intro st; rfl
  | cons i rest ih =>
    intro st
    simp only [runWorker]
    rw [ih]
    rfl

theorem rlookup_mapped (res : ℕ → List (List ℕ)) (i : ℕ) :
    ∀ l : List ℕ, i ∈ l →
      rlookup i (l.map fun j => (j, res j)) = some (res i) := by
  intro l
  induction l with
  | nil => intro h; simp at h
  | cons a rest ih =>
    intro hi
    simp only [List.map_cons, rlookup]
    by_cases hia : i = a
    · subst hia
      rw [if_pos rfl]
    · rw [if_neg hia]
      refine ih ?_
      rcases List.mem_cons.mp hi with h | h
      · exact absurd h hia
      · exact h

theorem poolRun_canonical (ch : ℕ → ℕ → List ℕ × ℕ)
    (lf : List (List (Option ℚ)) → List (ℕ × ℕ)) (d : Tensor)
    (schedule : List (List ℕ)) (inits : List ℕ) (N : ℕ)
    (hlen : schedule.length ≤ inits.length)
    (hjoin : schedule.flatten.Perm (List.range N)) :
    poolRun ch lf d schedule inits N =
      (List.range N).map (taskResult ch lf d) := by
  rw [poolRun]
  have h2 : ((schedule.zip inits).map fun p => runWorker ch lf d p.2 p.1) =
      (schedule.zip inits).map fun p =>
        p.1.map fun i => (i, taskResult ch lf d i) := by
    refine List.map_congr_left ?_
    intro p _
    exact runWorker_eq_map ch lf d p.1 p.2
  have h3 : ((schedule.zip inits).map fun p =>
        p.1.map fun i => (i, taskResult ch lf d i)) =
      ((schedule.zip inits).map Prod.fst).map fun ts =>
        ts.map fun i => (i, taskResult ch lf d i) := by
    rw [List.map_map]
    rfl
  rw [h2, h3, List.map_fst_zip _ _ hlen, ← List.map_flatten]
  refine List.map_congr_left ?_
  intro i hi
  rw [rlookup_mapped (taskResult ch lf d) i schedule.flatten
    (hjoin.mem_iff.mpr hi)]
  rfl

/-- C9: each replicate `i` of the bootstrap pool is seeded by
`np.random.seed(i)`, a function of the replicate index alone, so its result
(`taskResult`) is independent of worker assignment, scheduling and the
workers' prior PRNG states.  Consequently any two valid schedules (the
replicate indices distributed across workers in any order, each exactly once)
produce the identical list of member-set collections, and hence identical
SupportVectors, for any deterministic PRNG `ch` and linkage function `lf`. -/
theorem bootstrap_engine_deterministic (ch : ℕ → ℕ → List ℕ × ℕ)
    (lf : List (List (Option ℚ)) → List (ℕ × ℕ)) (d : Tensor) (N : ℕ)
    (sched₁ sched₂ : List (List ℕ)) (inits₁ inits₂ : List ℕ)
    (h₁l : sched₁.length ≤ inits₁.length)
    (h₁j : sched₁.flatten.Perm (List.range N))
    (h₂l : sched₂.length ≤ inits₂.length)
    (h₂j : sched₂.flatten.Perm (List.range N)) :
    poolRun ch lf d sched₁ inits₁ N =
      (List.range N).map (taskResult ch lf d) ∧
    poolRun ch lf d sched₁ inits₁ N = poolRun ch lf d sched₂ inits₂ N ∧
    ∀ tc, calculate_bootstrap_values tc (poolRun ch lf d sched₁ inits₁ N) =
      calculate_bootstrap_values tc (poolRun ch lf d sched₂ inits₂ N) := by
  have e₁ := poolRun_canonical ch lf d sched₁ inits₁ N h₁l h₁j
  have e₂ := poolRun_canonical ch lf d sched₂ inits₂ N h₂l h₂j
  exact ⟨e₁, by rw [e₁, e₂], fun tc => by rw [e₁, e₂]⟩

/-- C9 witnessed: two replicates run on one worker in reversed order versus on
two workers with different initial PRNG states give the same output. -/
theorem bootstrap_engine_deterministic_witness :
    ([[1, 0]] : List (List ℕ)).length ≤ ([5] : List ℕ).length ∧
    ([[1, 0]] : List (List ℕ)).flatten.Perm (List.range 2) ∧
    ([[0], [1]] : List (List ℕ)).length ≤ ([3, 4] : List ℕ).length ∧
    ([[0], [1]] : List (List ℕ)).flatten.Perm (List.range 2) ∧
    (poolRun (fun _ n => ([], n)) (fun _ => []) [] [[1, 0]] [5] 2 =
        (List.range 2).map (taskResult (fun _ n => ([], n)) (fun _ => []) []) ∧
      poolRun (fun _ n => ([], n)) (fun _ => []) [] [[1, 0]] [5] 2 =
        poolRun (fun _ n => ([], n)) (fun _ => []) [] [[0], [1]] [3, 4] 2 ∧
      ∀ tc, calculate_bootstrap_values tc
          (poolRun (fun _ n => ([], n)) (fun _ => []) [] [[1, 0]] [5] 2) =
        calculate_bootstrap_values tc
          (poolRun (fun _ n => ([], n)) (fun _ => []) [] [[0], [1]] [3, 4] 2)) :=
  ⟨by norm_num, by decide, by norm_num, by decide,
    bootstrap_engine_deterministic (fun _ n => ([], n)) (fun _ => []) [] 2
      [[1, 0]] [[0], [1]] [5] [3, 4] (by norm_num) (by decide) (by norm_num)
      (by decide)⟩


end RrrSnvs
